import Mathlib

/-!
Verification of the simplate template engine core.

Strings are modelled as `List Char` (Go strings at the rune level).  The
embedded functions mirror, statement by statement:

* `pkg/template/parser.go` — `ParseSegments` / `filterEmptyEdgeSegments`,
* `pkg/template/functions.go` — `unique`,
* the filesystem sink `DefaultFileWriter.WriteFile` / `SetBaseDir`
  (with Go's lexical `path/filepath` operations `Clean`, `Join`, `Rel`
  embedded as pure list functions),
* the execution pipeline `Execute` / `ExecuteWithFiles`, with the external
  rendering capability, input provider, validators and sink kept abstract
  (they are parameters, exactly as the interfaces in the Go code).
-/

set_option maxHeartbeats 1000000

/-! ## String search: Go `strings.Index`, `strings.Contains`, `strings.TrimSpace` -/

/-- First index at which `p` occurs as a contiguous substring of `s`
(Go `strings.Index`), `none` when there is no occurrence. -/
def firstIdx (p : List Char) : List Char → Option Nat
  | [] => if p = [] then some 0 else none
  | c :: t => if p.isPrefixOf (c :: t) then some 0 else (firstIdx p t).map (· + 1)

/-- Go `strings.Contains p s` (substring containment). -/
def containsSub (p s : List Char) : Bool := (firstIdx p s).isSome

/-- Go `unicode.IsSpace`: the Latin-1 white space runes together with the
Unicode `White_Space` code points above `0xFF`. -/
def goIsSpace (c : Char) : Bool :=
  c = '\t' || c = '\n' || c = '\x0b' || c = '\x0c' || c = '\r' || c = ' ' ||
  c = '\x85' || c = '\xa0' ||
  c = '\u1680' || ('\u2000' ≤ c && c ≤ '\u200a') ||
  c = '\u2028' || c = '\u2029' || c = '\u202f' || c = '\u205f' || c = '\u3000'

/-- Go `strings.TrimSpace` / `bytes.TrimSpace` at the rune level. -/
def trimSpace (s : List Char) : List Char :=
  ((s.dropWhile goIsSpace).reverse.dropWhile goIsSpace).reverse

theorem firstIdx_isPrefixOf_drop {p s : List Char} {i : Nat}
    (h : firstIdx p s = some i) : p.isPrefixOf (s.drop i) := by
  induction s generalizing i with
  | nil =>
    simp only [firstIdx] at h
    split at h
    · simp_all
    · exact absurd h (by simp)
  | cons c t ih =>
    simp only [firstIdx] at h
    split at h
    · rename_i hpre
      obtain rfl : i = 0 := by simpa using h.symm
      simpa using hpre
    · rcases Option.map_eq_some'.1 h with ⟨j, hj, rfl⟩
      simpa using ih hj

theorem firstIdx_min {p s : List Char} {i : Nat}
    (h : firstIdx p s = some i) : ∀ j < i, ¬ p.isPrefixOf (s.drop j) := by
  induction s generalizing i with
  | nil =>
    simp only [firstIdx] at h
    split at h
    · obtain rfl : i = 0 := by simpa using h.symm
      intro j hj
      exact absurd hj (by omega)
    · exact absurd h (by simp)
  | cons c t ih =>
    simp only [firstIdx] at h
    split at h
    · obtain rfl : i = 0 := by simpa using h.symm
      intro j hj
      exact absurd hj (by omega)
    · rcases Option.map_eq_some'.1 h with ⟨j0, hj0, rfl⟩
      intro j hj
      match j with
      | 0 => simpa using ‹¬ p.isPrefixOf (c :: t)›
      | j + 1 =>
        simp only [List.drop_succ_cons]
        exact ih hj0 j (by omega)

theorem firstIdx_le_of_isPrefixOf_drop {p s : List Char} {j : Nat}
    (h : p.isPrefixOf (s.drop j)) : ∃ i, firstIdx p s = some i ∧ i ≤ j := by
  induction s generalizing j with
  | nil =>
    simp only [List.drop_nil] at h
    have hp : p = [] := List.prefix_nil.1 (List.isPrefixOf_iff_prefix.1 h)
    subst hp
    exact ⟨0, by simp [firstIdx], Nat.zero_le j⟩
  | cons c t ih =>
    by_cases hp : p.isPrefixOf (c :: t)
    · exact ⟨0, by simp [firstIdx, hp], Nat.zero_le j⟩
    · match j with
      | 0 => exact absurd h hp
      | j + 1 =>
        simp only [List.drop_succ_cons] at h
        rcases ih h with ⟨i, hi, hle⟩
        exact ⟨i + 1, by simp [firstIdx, hp, hi], by omega⟩

theorem firstIdx_eq_some_of_min {p s : List Char} {i : Nat}
    (h : p.isPrefixOf (s.drop i)) (hmin : ∀ j < i, ¬ p.isPrefixOf (s.drop j)) :
    firstIdx p s = some i := by
  rcases firstIdx_le_of_isPrefixOf_drop h with ⟨k, hk, hle⟩
  rcases Nat.lt_or_ge k i with hlt | hge
  · exact absurd (firstIdx_isPrefixOf_drop hk) (hmin k hlt)
  · have : k = i := Nat.le_antisymm hle hge
    exact this ▸ hk

theorem firstIdx_none_iff {p s : List Char} :
    firstIdx p s = none ↔ ∀ j, ¬ p.isPrefixOf (s.drop j) := by
  constructor
  · intro h j hp
    rcases firstIdx_le_of_isPrefixOf_drop hp with ⟨i, hi, _⟩
    simp [h] at hi
  · intro h
    cases hf : firstIdx p s with
    | none => rfl
    | some i => exact absurd (firstIdx_isPrefixOf_drop hf) (h i)

theorem firstIdx_bound {p s : List Char} {i : Nat}
    (h : firstIdx p s = some i) : i + p.length ≤ s.length := by
  induction s generalizing i with
  | nil =>
    simp only [firstIdx] at h
    split at h
    · simp_all
    · exact absurd h (by simp)
  | cons c t ih =>
    simp only [firstIdx] at h
    split at h
    · obtain rfl : (0 : Nat) = i := by simpa using h
      have := List.IsPrefix.length_le (List.isPrefixOf_iff_prefix.1 ‹p.isPrefixOf (c :: t)›)
      simpa using this
    · rcases Option.map_eq_some'.1 h with ⟨j, hj, rfl⟩
      have := ih hj
      simp only [List.length_cons]
      omega

theorem containsSub_iff_infix {p s : List Char} :
    containsSub p s = true ↔ p <:+: s := by
  constructor
  · intro h
    rcases Option.isSome_iff_exists.1 h with ⟨i, hi⟩
    have hp := List.isPrefixOf_iff_prefix.1 (firstIdx_isPrefixOf_drop hi)
    exact hp.isInfix.trans (s.drop_suffix i).isInfix
  · rintro ⟨u, v, rfl⟩
    have hp : p.isPrefixOf ((u ++ p ++ v).drop u.length) := by
      rw [List.append_assoc, List.drop_left]
      exact List.isPrefixOf_iff_prefix.2 ⟨v, rfl⟩
    rcases firstIdx_le_of_isPrefixOf_drop hp with ⟨i, hi, _⟩
    unfold containsSub
    rw [hi]
    rfl

theorem not_containsSub_iff {p s : List Char} :
    containsSub p s = false ↔ firstIdx p s = none := by
  unfold containsSub
  cases firstIdx p s <;> simp

theorem mem_of_containsSub {p s : List Char} {c : Char}
    (h : containsSub p s = true) (hc : c ∈ p) : c ∈ s := by
  rcases containsSub_iff_infix.1 h with ⟨u, v, rfl⟩
  simp [hc]

theorem firstIdx_singleton_append {c : Char} {xs ys : List Char}
    (h : c ∉ xs) : firstIdx [c] (xs ++ c :: ys) = some xs.length := by
  induction xs with
  | nil =>
    have hpre : [c].isPrefixOf (c :: ys) = true := by
      simp [List.isPrefixOf]
    simp [firstIdx, hpre]
  | cons x xt ih =>
    have hx : ¬ (x = c) := fun hxc => h (by simp [hxc])
    have hnp : [c].isPrefixOf (x :: (xt ++ c :: ys)) = false := by
      simp only [List.isPrefixOf, List.isPrefixOf_nil_left, Bool.and_true, beq_iff_eq,
        Bool.eq_false_iff, ne_eq]
      exact fun h' => hx h'.symm
    have ih' := ih (fun hm => h (List.mem_cons_of_mem x hm))
    simp [firstIdx, hnp, ih']

theorem char_not_mem_take_firstIdx {c : Char} {s : List Char} {i : Nat}
    (h : firstIdx [c] s = some i) : c ∉ s.take i := by
  intro hmem
  rcases List.mem_iff_get.1 (by exact hmem) with ⟨⟨j, hj⟩, hg⟩
  have hjlt : j < i := by
    have := hj
    simp only [List.length_take] at this
    omega
  apply firstIdx_min h j hjlt
  have hjs : j < s.length := by
    have := hj
    simp only [List.length_take] at this
    have hb := firstIdx_bound h
    simp at hb ⊢
    omega
  have : s.drop j = c :: s.drop (j + 1) := by
    have hget : s.get ⟨j, hjs⟩ = c := by
      rw [← hg]
      simp [List.get_take]
    rw [List.drop_eq_get_cons hjs, hget]
  rw [this]
  simp [List.isPrefixOf]

theorem trimSpace_eq_nil_iff {s : List Char} :
    trimSpace s = [] ↔ ∀ c ∈ s, goIsSpace c = true := by
  unfold trimSpace
  constructor
  · intro h c hc
    have h1 : (s.dropWhile goIsSpace).reverse.dropWhile goIsSpace = [] := by
      simpa using h
    have h3 : ∀ x ∈ s.dropWhile goIsSpace, goIsSpace x = true := fun x hx =>
      List.dropWhile_eq_nil_iff.1 h1 x (List.mem_reverse.2 hx)
    have hsplit : c ∈ s.takeWhile goIsSpace ++ s.dropWhile goIsSpace := by
      rw [List.takeWhile_append_dropWhile]
      exact hc
    rcases List.mem_append.1 hsplit with hc1 | hc2
    · exact List.mem_takeWhile_imp hc1
    · exact h3 c hc2
  · intro h
    have h1 : s.dropWhile goIsSpace = [] := by
      rw [List.dropWhile_eq_nil_iff]
      intro x hx
      exact h x hx
    simp [h1]

/-! ## Segment parser (`pkg/template/parser.go`) -/

/-- `SegmentType` from `parser.go` (`SegmentStdout` / `SegmentFile`). -/
inductive SegmentType where
  | stdout
  | file
deriving DecidableEq, Repr

/-- `Segment` from `parser.go`: raw content plus, for FILE segments, the raw
filename template.  Go's `nil` byte slices are modelled as `[]`. -/
structure Segment where
  type : SegmentType
  content : List Char
  filename : List Char
deriving DecidableEq, Repr

/-- Go constant `fileOpenPrefix = "#FILE:"`. -/
def fileOpenMark : List Char := ['#', 'F', 'I', 'L', 'E', ':']

/-- Go constant `fileOpenSuffix = "#"`. -/
def fileOpenEnd : List Char := ['#']

/-- Go constant `fileClose = "#FILE#"`. -/
def fileCloseMark : List Char := ['#', 'F', 'I', 'L', 'E', '#']

/-- The parse error cases of `ParseSegments`, with the byte offset each
`fmt.Errorf` reports.  The two textually distinct `nested FILE directive`
return sites are kept apart: `nestedFilename` is the check on the extracted
filename, `nested` the check inside an open FILE block. -/
inductive ParseErr where
  | unclosed (pos : Nat)
  | unexpectedClose (pos : Nat)
  | malformedOpen (pos : Nat)
  | emptyFilename (pos : Nat)
  | nestedFilename (pos : Nat)
  | nested (pos : Nat)
deriving DecidableEq, Repr

deriving instance DecidableEq for Except

/-- The guard `closeIdx != -1 && (openIdx == -1 || closeIdx < openIdx)`
specialised to the state where an opening index is present. -/
def closeBeforeOpen : Option Nat → Nat → Bool
  | some cIdx, o => cIdx < o
  | none, _ => false

/-- The scanning loop of `ParseSegments` (`parser.go` lines 55-139).

`rem` is the unscanned remainder `template[pos:]`; `pos` is the absolute
offset used in error messages; the `Option` state is `none` outside a FILE
block and `some (filename, fileBlockStart)` inside one (the Go code instead
appends a FILE segment with `nil` content at the opening marker and patches
its content at the closing marker; carrying the pending filename in the
state produces the same segment list in the same order).  The `fuel`
argument makes the recursion structural; every loop iteration consumes at
least one character, so `fuel = rem.length` always suffices, and the
fuel-exhausted cases (unreachable for adequate fuel) mirror the
end-of-input answers. -/
def parseLoopF : Nat → List Char → Nat → Option (List Char × Nat) → List Segment →
    Except ParseErr (List Segment)
  | _, [], _, none, segs => .ok segs
  | _, [], _, some (_, fbs), _ => .error (.unclosed fbs)
  | 0, _ :: _, _, none, segs => .ok segs
  | 0, _ :: _, _, some (_, fbs), _ => .error (.unclosed fbs)
  | fuel + 1, c :: cs, pos, none, segs =>
    let rem := c :: cs
    match firstIdx fileOpenMark rem, firstIdx fileCloseMark rem with
    | none, none => .ok (segs ++ [⟨.stdout, rem, []⟩])
    | none, some cIdx => .error (.unexpectedClose (pos + cIdx))
    | some o, cOpt =>
      if closeBeforeOpen cOpt o then .error (.unexpectedClose (pos + cOpt.getD 0))
      else
        let segs1 := if 0 < o then segs ++ [⟨.stdout, rem.take o, []⟩] else segs
        let afterMark := rem.drop (o + 6)
        match firstIdx fileOpenEnd afterMark with
        | none => .error (.malformedOpen (pos + o))
        | some fEnd =>
          let fname := afterMark.take fEnd
          if trimSpace fname = [] then .error (.emptyFilename (pos + o))
          else if containsSub fileOpenMark fname then .error (.nestedFilename (pos + o))
          else parseLoopF fuel (afterMark.drop (fEnd + 1)) (pos + o + 6 + fEnd + 1)
            (some (fname, pos + o)) segs1
  | fuel + 1, c :: cs, pos, some (fname, fbs), segs =>
    let rem := c :: cs
    match firstIdx fileOpenMark rem, firstIdx fileCloseMark rem with
    | none, none => .error (.unclosed fbs)
    | some o, none => .error (.nested (pos + o))
    | some o, some cIdx =>
      if o < cIdx then .error (.nested (pos + o))
      else parseLoopF fuel (rem.drop (cIdx + 6)) (pos + cIdx + 6) none
        (segs ++ [⟨.file, rem.take cIdx, fname⟩])
    | none, some cIdx =>
      parseLoopF fuel (rem.drop (cIdx + 6)) (pos + cIdx + 6) none
        (segs ++ [⟨.file, rem.take cIdx, fname⟩])

/-- Is a segment dropped by `filterEmptyEdgeSegments`?  Go keeps a segment
when `seg.Type == SegmentFile || len(bytes.TrimSpace(seg.Content)) > 0`. -/
def isStrippable (s : Segment) : Bool :=
  match s.type with
  | .stdout => (trimSpace s.content).isEmpty
  | .file => false

/-- `filterEmptyEdgeSegments` (`parser.go` lines 157-189): drop empty or
all-whitespace stdout segments from the front and the back of the list; if
everything is dropped, return one empty stdout segment.  The Go code scans
`start` forward and `end` backward to the first kept segment; dropping
strippable segments from the left and then from the right is the same
computation. -/
def filterEmptyEdgeSegments (segments : List Segment) : List Segment :=
  if segments.isEmpty then segments
  else if (((segments.dropWhile isStrippable).reverse.dropWhile isStrippable).reverse).isEmpty then
    [⟨.stdout, [], []⟩]
  else ((segments.dropWhile isStrippable).reverse.dropWhile isStrippable).reverse

/-- `ParseSegments` (`parser.go` lines 44-152). -/
def ParseSegments (templateBytes : List Char) : Except ParseErr (List Segment) :=
  if templateBytes.length = 0 then .ok [⟨.stdout, [], []⟩]
  else
    match parseLoopF templateBytes.length templateBytes 0 none [] with
    | .error e => .error e
    | .ok segments =>
      if segments.length = 0 then .ok [⟨.stdout, templateBytes, []⟩]
      else .ok (filterEmptyEdgeSegments segments)

example : ParseSegments "#FILE:a#x#FILE#tail".toList =
    .ok [⟨.file, "x".toList, "a".toList⟩, ⟨.stdout, "tail".toList, []⟩] := by decide

example : ParseSegments "pre #FILE:a#x#FILE#".toList =
    .ok [⟨.stdout, "pre ".toList, []⟩, ⟨.file, "x".toList, "a".toList⟩] := by decide

example : ParseSegments " ".toList = .ok [⟨.stdout, [], []⟩] := by decide

example : ParseSegments "#FILE#x".toList = .error (.unexpectedClose 0) := by decide

example : ParseSegments "a#FILE:x#b".toList = .error (.unclosed 1) := by decide

example : ParseSegments "#FILE: #x#FILE#".toList = .error (.emptyFilename 0) := by decide

example : ParseSegments "#FILE:a#b#FILE:c#d#FILE##FILE#".toList = .error (.nested 9) := by decide

/-! ## Round-trip reconstruction (claims C1, C2, C3, C6, C10) -/

/-- The original source span a segment was parsed from: a stdout segment is
its content, a FILE segment is its content and name with the two directive
markers re-inserted. -/
def segSpan (s : Segment) : List Char :=
  match s.type with
  | .stdout => s.content
  | .file => fileOpenMark ++ s.filename ++ fileOpenEnd ++ s.content ++ fileCloseMark

/-- Concatenation of the source spans of a segment list. -/
def reconstruct (segs : List Segment) : List Char := (segs.map segSpan).join

@[simp] theorem reconstruct_nil : reconstruct [] = [] := rfl

@[simp] theorem reconstruct_append (a b : List Segment) :
    reconstruct (a ++ b) = reconstruct a ++ reconstruct b := by
  simp [reconstruct]

@[simp] theorem reconstruct_singleton (s : Segment) : reconstruct [s] = segSpan s := by
  simp [reconstruct]

@[simp] theorem fileOpenMark_length : fileOpenMark.length = 6 := rfl

@[simp] theorem fileCloseMark_length : fileCloseMark.length = 6 := rfl

@[simp] theorem fileOpenEnd_length : fileOpenEnd.length = 1 := rfl

/-- The span consumed so far but not yet recorded in the segment list: inside
a FILE block the opening marker and the filename are consumed while the
pending segment is only emitted at the closing marker. -/
def stSpan : Option (List Char × Nat) → List Char → List Char
  | none, rem => rem
  | some (fname, _), rem => fileOpenMark ++ fname ++ fileOpenEnd ++ rem

theorem firstIdx_decomp {p s : List Char} {i : Nat} (h : firstIdx p s = some i) :
    s = s.take i ++ p ++ s.drop (i + p.length) := by
  rcases List.isPrefixOf_iff_prefix.1 (firstIdx_isPrefixOf_drop h) with ⟨t, ht⟩
  have htt : t = s.drop (i + p.length) := by
    have := congrArg (List.drop p.length) ht
    rw [List.drop_left] at this
    rw [this, List.drop_drop, Nat.add_comm]
  calc s = s.take i ++ s.drop i := (List.take_append_drop i s).symm
    _ = s.take i ++ (p ++ t) := by rw [ht]
    _ = s.take i ++ p ++ s.drop (i + p.length) := by rw [htt, List.append_assoc]

/-- Loop invariant behind the round-trip property: a successful scan extends
the reconstruction of the accumulated segments by exactly the unscanned
remainder (plus, inside a FILE block, the already-consumed opening marker
and filename). -/
theorem parseLoopF_reconstruct : ∀ fuel rem pos st segs out,
    rem.length ≤ fuel →
    parseLoopF fuel rem pos st segs = .ok out →
    reconstruct out = reconstruct segs ++ stSpan st rem := by
  intro fuel
  induction fuel with
  | zero =>
    intro rem pos st segs out hlen h
    have hrem : rem = [] := List.length_eq_zero.1 (Nat.le_zero.1 hlen)
    subst hrem
    match st with
    | none =>
      simp only [parseLoopF] at h
      cases h
      simp [stSpan]
    | some (fn, fbs) => exact absurd h (by simp [parseLoopF])
  | succ fuel ih =>
    intro rem pos st segs out hlen h
    match rem with
    | [] =>
      match st with
      | none =>
        simp only [parseLoopF] at h
        cases h
        simp [stSpan]
      | some (fn, fbs) => exact absurd h (by simp [parseLoopF])
    | c :: cs =>
      rcases ho : firstIdx fileOpenMark (c :: cs) with _ | o <;>
        rcases hc : firstIdx fileCloseMark (c :: cs) with _ | cIdx
      · -- no marker at all
        match st with
        | none =>
          simp only [parseLoopF, ho, hc] at h
          cases h
          simp [stSpan, segSpan]
        | some (fn, fbs) =>
          simp only [parseLoopF, ho, hc] at h
          exact absurd h (by simp)
      · -- close marker only
        match st with
        | none =>
          simp only [parseLoopF, ho, hc] at h
          exact absurd h (by simp)
        | some (fn, fbs) =>
          simp only [parseLoopF, ho, hc] at h
          have hlen2 : ((c :: cs).drop (cIdx + 6)).length ≤ fuel := by
            simp only [List.length_drop, List.length_cons] at hlen ⊢
            omega
          have hrec := ih _ _ _ _ _ hlen2 h
          rw [hrec]
          have hclose := firstIdx_decomp hc
          simp only [fileCloseMark_length] at hclose
          simp only [stSpan, reconstruct_append, reconstruct_singleton, segSpan]
          conv_rhs => rw [hclose]
          simp only [List.append_assoc]
      · -- open marker only
        match st with
        | none =>
          simp only [parseLoopF, ho, hc, closeBeforeOpen, Bool.false_eq_true, if_false] at h
          rcases hEnd : firstIdx fileOpenEnd ((c :: cs).drop (o + 6)) with _ | fEnd
          · simp only [hEnd] at h
            exact absurd h (by simp)
          · simp only [hEnd] at h
            split at h
            · exact absurd h (by simp)
            · split at h
              · exact absurd h (by simp)
              · have hlen2 : (((c :: cs).drop (o + 6)).drop (fEnd + 1)).length ≤ fuel := by
                  simp only [List.length_drop, List.length_cons] at hlen ⊢
                  omega
                have hrec := ih _ _ _ _ _ hlen2 h
                rw [hrec]
                have hopen := firstIdx_decomp ho
                have hend := firstIdx_decomp hEnd
                simp only [fileOpenMark_length, fileOpenEnd_length] at hopen hend
                by_cases hpos : 0 < o
                · rw [if_pos hpos]
                  simp only [stSpan, reconstruct_append, reconstruct_singleton, segSpan]
                  conv_rhs => rw [hopen, hend]
                  simp only [List.append_assoc]
                · have ho0 : o = 0 := by omega
                  subst ho0
                  rw [if_neg hpos]
                  simp only [stSpan, reconstruct_append, reconstruct_singleton, segSpan]
                  simp only [List.take_zero, List.nil_append] at hopen
                  conv_rhs => rw [hopen, hend]
                  simp only [List.append_assoc]
        | some (fn, fbs) =>
          simp only [parseLoopF, ho, hc] at h
          exact absurd h (by simp)
      · -- both markers
        match st with
        | none =>
          simp only [parseLoopF, ho, hc, closeBeforeOpen] at h
          split at h
          · exact absurd h (by simp)
          · rcases hEnd : firstIdx fileOpenEnd ((c :: cs).drop (o + 6)) with _ | fEnd
            · simp only [hEnd] at h
              exact absurd h (by simp)
            · simp only [hEnd] at h
              split at h
              · exact absurd h (by simp)
              · split at h
                · exact absurd h (by simp)
                · have hlen2 : (((c :: cs).drop (o + 6)).drop (fEnd + 1)).length ≤ fuel := by
                    simp only [List.length_drop, List.length_cons] at hlen ⊢
                    omega
                  have hrec := ih _ _ _ _ _ hlen2 h
                  rw [hrec]
                  have hopen := firstIdx_decomp ho
                  have hend := firstIdx_decomp hEnd
                  simp only [fileOpenMark_length, fileOpenEnd_length] at hopen hend
                  by_cases hpos : 0 < o
                  · rw [if_pos hpos]
                    simp only [stSpan, reconstruct_append, reconstruct_singleton, segSpan]
                    conv_rhs => rw [hopen, hend]
                    simp only [List.append_assoc]
                  · have ho0 : o = 0 := by omega
                    subst ho0
                    rw [if_neg hpos]
                    simp only [stSpan, reconstruct_append, reconstruct_singleton, segSpan]
                    simp only [List.take_zero, List.nil_append] at hopen
                    conv_rhs => rw [hopen, hend]
                    simp only [List.append_assoc]
        | some (fn, fbs) =>
          simp only [parseLoopF, ho, hc] at h
          split at h
          · exact absurd h (by simp)
          · have hlen2 : ((c :: cs).drop (cIdx + 6)).length ≤ fuel := by
              simp only [List.length_drop, List.length_cons] at hlen ⊢
              omega
            have hrec := ih _ _ _ _ _ hlen2 h
            rw [hrec]
            have hclose := firstIdx_decomp hc
            simp only [fileCloseMark_length] at hclose
            simp only [stSpan, reconstruct_append, reconstruct_singleton, segSpan]
            conv_rhs => rw [hclose]
            simp only [List.append_assoc]

/-! ## Edge trimming -/

theorem dropWhile_cons_false {α : Type} {p : α → Bool} :
    ∀ {l : List α} {x : α} {xs : List α}, l.dropWhile p = x :: xs → p x = false := by
  intro l
  induction l with
  | nil => intro x xs h; simp at h
  | cons a t ih =>
    intro x xs h
    rw [List.dropWhile_cons] at h
    split at h
    · exact ih h
    · cases h
      simpa using ‹¬ p a = true›

theorem isStrippable_iff {s : Segment} :
    isStrippable s = true ↔ s.type = .stdout ∧ trimSpace s.content = [] := by
  rcases s with ⟨ty, co, fn⟩
  cases ty <;> simp [isStrippable, List.isEmpty_iff]

/-- Structure of `filterEmptyEdgeSegments`: either the result is a
contiguous infix of the input obtained by removing strippable segments
from the two ends only, or every segment was strippable and the result is
the single empty stdout segment. -/
theorem filterEdge_decomp (segs : List Segment) (hne : segs ≠ []) :
    (∃ p q, segs = p ++ filterEmptyEdgeSegments segs ++ q ∧
      (∀ s ∈ p, isStrippable s = true) ∧ (∀ s ∈ q, isStrippable s = true) ∧
      filterEmptyEdgeSegments segs ≠ []) ∨
    ((∀ s ∈ segs, isStrippable s = true) ∧
      filterEmptyEdgeSegments segs = [⟨.stdout, [], []⟩]) := by
  rcases hd : segs.dropWhile isStrippable with _ | ⟨x, xs⟩
  · right
    refine ⟨List.dropWhile_eq_nil_iff.1 hd, ?_⟩
    unfold filterEmptyEdgeSegments
    rw [if_neg (by simpa [List.isEmpty_iff] using hne)]
    simp [hd]
  · left
    have hx : isStrippable x = false := dropWhile_cons_false hd
    rcases hd2 : (x :: xs).reverse.dropWhile isStrippable with _ | ⟨y, ys⟩
    · have hall : ∀ s ∈ (x :: xs).reverse, isStrippable s = true :=
        List.dropWhile_eq_nil_iff.1 hd2
      have hxs := hall x (by simp)
      rw [hx] at hxs
      cases hxs
    · have hres : filterEmptyEdgeSegments segs = (y :: ys).reverse := by
        unfold filterEmptyEdgeSegments
        rw [if_neg (by simpa [List.isEmpty_iff] using hne), hd, hd2,
          if_neg (by simp [List.isEmpty_iff])]
      rw [hres]
      have h1 : segs = segs.takeWhile isStrippable ++ (x :: xs) := by
        conv_lhs => rw [← List.takeWhile_append_dropWhile (p := isStrippable) (l := segs)]
        rw [hd]
      have h3 : (x :: xs).reverse = (x :: xs).reverse.takeWhile isStrippable ++ (y :: ys) := by
        conv_lhs => rw [← List.takeWhile_append_dropWhile (p := isStrippable)
          (l := (x :: xs).reverse)]
        rw [hd2]
      have h2 : x :: xs =
          (y :: ys).reverse ++ ((x :: xs).reverse.takeWhile isStrippable).reverse := by
        calc x :: xs = (x :: xs).reverse.reverse := by rw [List.reverse_reverse]
          _ = ((x :: xs).reverse.takeWhile isStrippable ++ (y :: ys)).reverse := by rw [← h3]
          _ = (y :: ys).reverse ++ ((x :: xs).reverse.takeWhile isStrippable).reverse := by
              rw [List.reverse_append]
      refine ⟨segs.takeWhile isStrippable, ((x :: xs).reverse.takeWhile isStrippable).reverse,
        ?_, ?_, ?_, by simp⟩
      · calc segs = segs.takeWhile isStrippable ++ (x :: xs) := h1
          _ = segs.takeWhile isStrippable ++
              ((y :: ys).reverse ++ ((x :: xs).reverse.takeWhile isStrippable).reverse) :=
            congrArg _ h2
          _ = segs.takeWhile isStrippable ++ (y :: ys).reverse ++
              ((x :: xs).reverse.takeWhile isStrippable).reverse := by
            rw [List.append_assoc]
      · intro s hs
        exact List.mem_takeWhile_imp hs
      · intro s hs
        exact List.mem_takeWhile_imp (List.mem_reverse.1 hs)

theorem strippable_span_space {s : Segment} (h : isStrippable s = true) :
    ∀ ch ∈ segSpan s, goIsSpace ch = true := by
  rcases isStrippable_iff.1 h with ⟨hty, htr⟩
  intro ch hch
  apply trimSpace_eq_nil_iff.1 htr
  rcases s with ⟨ty, co, fn⟩
  cases hty
  simpa [segSpan] using hch

theorem reconstruct_space {l : List Segment} (h : ∀ s ∈ l, isStrippable s = true) :
    ∀ ch ∈ reconstruct l, goIsSpace ch = true := by
  intro ch hch
  rcases List.mem_join.1 hch with ⟨sp, hsp, hchsp⟩
  rcases List.mem_map.1 hsp with ⟨s, hs, rfl⟩
  exact strippable_span_space (h s hs) ch hchsp

theorem filterEdge_single (s : Segment) :
    filterEmptyEdgeSegments [s] =
      if isStrippable s then [⟨.stdout, [], []⟩] else [s] := by
  unfold filterEmptyEdgeSegments
  rcases hs : isStrippable s <;>
    simp [List.dropWhile, hs]

/-! ## Claims C1, C2, C6 -/

/-- C1 (corrected).  The original claim — concatenating the source spans of
the returned segments reconstructs the template byte-for-byte — fails
because `filterEmptyEdgeSegments` deletes whitespace-only stdout segments
at the two edges.  Amended claim: the reconstruction recovers the template
up to a whitespace-only prefix and a whitespace-only suffix (both empty
whenever no edge segment was stripped). -/
theorem claim_C1_roundtrip : ∀ t segs, ParseSegments t = .ok segs →
    ∃ w1 w2, (∀ ch ∈ w1, goIsSpace ch = true) ∧ (∀ ch ∈ w2, goIsSpace ch = true) ∧
      t = w1 ++ reconstruct segs ++ w2 := by
  intro t segs h
  unfold ParseSegments at h
  by_cases h0 : t.length = 0
  · rw [if_pos h0] at h
    cases h
    rw [List.length_eq_zero.1 h0]
    exact ⟨[], [], by simp, by simp, by simp [segSpan]⟩
  · rw [if_neg h0] at h
    rcases hp : parseLoopF t.length t 0 none [] with e | pre
    · rw [hp] at h
      exact absurd h (by simp)
    · rw [hp] at h
      dsimp only at h
      have hrt : reconstruct pre = t := by
        have := parseLoopF_reconstruct t.length t 0 none [] pre (Nat.le_refl _) hp
        simpa [stSpan] using this
      by_cases hlen2 : pre.length = 0
      · rw [if_pos hlen2] at h
        cases h
        exact ⟨[], [], by simp, by simp, by simp [segSpan]⟩
      · rw [if_neg hlen2] at h
        cases h
        have hpre_ne : pre ≠ [] := by
          intro hnil
          simp [hnil] at hlen2
        rcases filterEdge_decomp pre hpre_ne with ⟨p, q, hdec, hps, hqs, _⟩ | ⟨hall, hres⟩
        · refine ⟨reconstruct p, reconstruct q, reconstruct_space hps, reconstruct_space hqs, ?_⟩
          rw [← hrt]
          conv_lhs => rw [hdec]
          simp
        · refine ⟨reconstruct pre, [], reconstruct_space hall, by simp, ?_⟩
          rw [← hrt, hres]
          simp [segSpan]

/-- C1 counterexample to the claim as stated: for the whitespace-only
template `" "` the parser succeeds, but the reconstruction of the returned
segments is empty, not the input. -/
theorem claim_C1_counterexample :
    ParseSegments [' '] = .ok [⟨.stdout, [], []⟩] ∧
      reconstruct [⟨.stdout, [], []⟩] ≠ [' '] := by decide

/-- Witness for C1 at the template `"a"`. -/
theorem claim_C1_witness :
    ∃ w1 w2, (∀ ch ∈ w1, goIsSpace ch = true) ∧ (∀ ch ∈ w2, goIsSpace ch = true) ∧
      ['a'] = w1 ++ reconstruct [⟨.stdout, ['a'], []⟩] ++ w2 :=
  claim_C1_roundtrip ['a'] [⟨.stdout, ['a'], []⟩] (by decide)

theorem parseLoopF_nil_none : ∀ fuel pos segs, parseLoopF fuel [] pos none segs = .ok segs := by
  intro fuel pos segs
  cases fuel <;> rfl

/-- Behaviour of `ParseSegments` on marker-free templates (shared by the
multi-destination/simple-render agreement proof). -/
theorem parse_markerFree {t : List Char}
    (ho : containsSub fileOpenMark t = false)
    (hc : containsSub fileCloseMark t = false) :
    ParseSegments t = .ok [⟨.stdout, (if trimSpace t = [] then [] else t), []⟩] := by
  match t with
  | [] => simp [ParseSegments, trimSpace]
  | c :: cs =>
    have h1 : firstIdx fileOpenMark (c :: cs) = none := not_containsSub_iff.1 ho
    have h2 : firstIdx fileCloseMark (c :: cs) = none := not_containsSub_iff.1 hc
    have hloop : parseLoopF (c :: cs).length (c :: cs) 0 none [] =
        .ok [⟨.stdout, c :: cs, []⟩] := by
      rw [List.length_cons]
      simp only [parseLoopF, h1, h2]
      simp
    unfold ParseSegments
    rw [if_neg (by simp), hloop]
    dsimp only
    rw [if_neg (by simp), filterEdge_single]
    by_cases hsp : trimSpace (c :: cs) = []
    · rw [if_pos (by simp [isStrippable, List.isEmpty_iff, hsp]), if_pos hsp]
    · rw [if_neg (by simp [isStrippable, List.isEmpty_iff, hsp]), if_neg hsp]

/-- C2 (corrected).  The original claim — for marker-free templates the
single returned segment's content equals the input bytes exactly — fails
for non-empty all-whitespace input, which `filterEmptyEdgeSegments`
replaces by an empty stdout segment.  Amended claim: marker-free parsing
yields exactly one stdout segment whose content is the input itself unless
the input is non-empty and entirely whitespace, in which case the content
is empty (empty input also yields one empty segment). -/
theorem claim_C2_markerFree : ∀ t : List Char,
    containsSub fileOpenMark t = false →
    containsSub fileCloseMark t = false →
    ParseSegments t = .ok [⟨.stdout, (if trimSpace t = [] then [] else t), []⟩] :=
  fun _ ho hc => parse_markerFree ho hc

/-- C2 counterexample to the claim as stated: the whitespace-only marker-free
template `" "` parses to a segment with empty content, not `" "`. -/
theorem claim_C2_counterexample :
    containsSub fileOpenMark [' '] = false ∧ containsSub fileCloseMark [' '] = false ∧
      ParseSegments [' '] ≠ .ok [⟨.stdout, [' '], []⟩] := by decide

/-- Witness for C2 at the template `"hi"`. -/
theorem claim_C2_witness :
    ParseSegments ['h', 'i'] = .ok [⟨.stdout, ['h', 'i'], []⟩] := by
  have h := claim_C2_markerFree ['h', 'i'] (by decide) (by decide)
  rw [if_neg (by decide)] at h
  exact h

/-- C6 (confirmed).  `filterEmptyEdgeSegments` removes empty/whitespace
stdout segments from the two ends only: the result is a contiguous infix of
the input (so interior segments, including interior empty stdout segments,
are preserved in place), FILE segments are never removed, and when every
segment is an empty/whitespace stdout segment the result is a single empty
stdout segment. -/
theorem claim_C6_edgeTrim : ∀ segs : List Segment, segs ≠ [] →
    (∃ p q, segs = p ++ filterEmptyEdgeSegments segs ++ q ∧
        (∀ s ∈ p, s.type = .stdout ∧ trimSpace s.content = []) ∧
        (∀ s ∈ q, s.type = .stdout ∧ trimSpace s.content = []) ∧
        filterEmptyEdgeSegments segs ≠ [] ∧
        (∀ s ∈ segs, s.type = .file → s ∈ filterEmptyEdgeSegments segs)) ∨
      ((∀ s ∈ segs, s.type = .stdout ∧ trimSpace s.content = []) ∧
        filterEmptyEdgeSegments segs = [⟨.stdout, [], []⟩]) := by
  intro segs hne
  rcases filterEdge_decomp segs hne with ⟨p, q, hdec, hps, hqs, hneres⟩ | ⟨hall, hres⟩
  · left
    refine ⟨p, q, hdec, fun s hs => isStrippable_iff.1 (hps s hs),
      fun s hs => isStrippable_iff.1 (hqs s hs), hneres, ?_⟩
    intro s hs hf
    rw [hdec] at hs
    rcases List.mem_append.1 hs with hs1 | hs2
    · rcases List.mem_append.1 hs1 with hs1a | hs1b
      · have hty := (isStrippable_iff.1 (hps s hs1a)).1
        rw [hf] at hty
        simp at hty
      · exact hs1b
    · have hty := (isStrippable_iff.1 (hqs s hs2)).1
      rw [hf] at hty
      simp at hty
  · right
    exact ⟨fun s hs => isStrippable_iff.1 (hall s hs), hres⟩

/-- Witness for C6: a whitespace stdout segment on each side of a FILE
segment is stripped, the FILE segment is kept. -/
theorem claim_C6_witness :
    (∃ p q, [Segment.mk .stdout [' '] [], Segment.mk .file [] ['a'],
          Segment.mk .stdout [' '] []] =
        p ++ filterEmptyEdgeSegments [Segment.mk .stdout [' '] [],
          Segment.mk .file [] ['a'], Segment.mk .stdout [' '] []] ++ q ∧
        (∀ s ∈ p, s.type = .stdout ∧ trimSpace s.content = []) ∧
        (∀ s ∈ q, s.type = .stdout ∧ trimSpace s.content = []) ∧
        filterEmptyEdgeSegments [Segment.mk .stdout [' '] [],
          Segment.mk .file [] ['a'], Segment.mk .stdout [' '] []] ≠ [] ∧
        (∀ s ∈ [Segment.mk .stdout [' '] [], Segment.mk .file [] ['a'],
            Segment.mk .stdout [' '] []], s.type = .file →
          s ∈ filterEmptyEdgeSegments [Segment.mk .stdout [' '] [],
            Segment.mk .file [] ['a'], Segment.mk .stdout [' '] []])) ∨
      ((∀ s ∈ [Segment.mk .stdout [' '] [], Segment.mk .file [] ['a'],
          Segment.mk .stdout [' '] []], s.type = .stdout ∧ trimSpace s.content = []) ∧
        filterEmptyEdgeSegments [Segment.mk .stdout [' '] [],
          Segment.mk .file [] ['a'], Segment.mk .stdout [' '] []] =
          [⟨.stdout, [], []⟩]) :=
  claim_C6_edgeTrim _ (by decide)

/-! ## Claim C10: extracted filenames contain no `#` -/

/-- Loop invariant: every FILE segment the scan emits has a filename that
was cut off at the first `#` after the `#FILE:` marker, hence contains no
`#` at all. -/
theorem parseLoopF_hashfree : ∀ fuel rem pos st segs out,
    parseLoopF fuel rem pos st segs = .ok out →
    (∀ s ∈ segs, s.type = .file → '#' ∉ s.filename) →
    (∀ fn fbs, st = some (fn, fbs) → '#' ∉ fn) →
    ∀ s ∈ out, s.type = .file → '#' ∉ s.filename := by
  intro fuel
  induction fuel with
  | zero =>
    intro rem pos st segs out h hsegs hst
    match rem, st with
    | [], none => cases h; exact hsegs
    | [], some (fn, fbs) => exact absurd h (by simp [parseLoopF])
    | c :: cs, none => cases h; exact hsegs
    | c :: cs, some (fn, fbs) => exact absurd h (by simp [parseLoopF])
  | succ fuel ih =>
    intro rem pos st segs out h hsegs hst
    match rem with
    | [] =>
      match st with
      | none => cases h; exact hsegs
      | some (fn, fbs) => exact absurd h (by simp [parseLoopF])
    | c :: cs =>
      rcases ho : firstIdx fileOpenMark (c :: cs) with _ | o <;>
        rcases hc : firstIdx fileCloseMark (c :: cs) with _ | cIdx
      · -- no marker at all
        match st with
        | none =>
          simp only [parseLoopF, ho, hc] at h
          cases h
          intro s hs hf
          rcases List.mem_append.1 hs with hs1 | hs2
          · exact hsegs s hs1 hf
          · rw [List.mem_singleton.1 hs2] at hf
            simp at hf
        | some (fn, fbs) =>
          simp only [parseLoopF, ho, hc] at h
          exact absurd h (by simp)
      · -- close marker only
        match st with
        | none =>
          simp only [parseLoopF, ho, hc] at h
          exact absurd h (by simp)
        | some (fn, fbs) =>
          simp only [parseLoopF, ho, hc] at h
          refine ih _ _ _ _ _ h ?_ (by simp)
          intro s hs hf
          rcases List.mem_append.1 hs with hs1 | hs2
          · exact hsegs s hs1 hf
          · rw [List.mem_singleton.1 hs2]
            exact hst fn fbs rfl
      · -- open marker only
        match st with
        | none =>
          simp only [parseLoopF, ho, hc, closeBeforeOpen, Bool.false_eq_true, if_false] at h
          rcases hEnd : firstIdx fileOpenEnd ((c :: cs).drop (o + 6)) with _ | fEnd
          · simp only [hEnd] at h
            exact absurd h (by simp)
          · simp only [hEnd] at h
            split at h
            · exact absurd h (by simp)
            · split at h
              · exact absurd h (by simp)
              · refine ih _ _ _ _ _ h ?_ ?_
                · intro s hs hf
                  split at hs
                  · rcases List.mem_append.1 hs with hs1 | hs2
                    · exact hsegs s hs1 hf
                    · rw [List.mem_singleton.1 hs2] at hf
                      simp at hf
                  · exact hsegs s hs hf
                · intro fn fbs hsome
                  cases hsome
                  exact char_not_mem_take_firstIdx
                    (show firstIdx ['#'] _ = some fEnd from hEnd)
        | some (fn, fbs) =>
          simp only [parseLoopF, ho, hc] at h
          exact absurd h (by simp)
      · -- both markers
        match st with
        | none =>
          simp only [parseLoopF, ho, hc, closeBeforeOpen] at h
          split at h
          · exact absurd h (by simp)
          · rcases hEnd : firstIdx fileOpenEnd ((c :: cs).drop (o + 6)) with _ | fEnd
            · simp only [hEnd] at h
              exact absurd h (by simp)
            · simp only [hEnd] at h
              split at h
              · exact absurd h (by simp)
              · split at h
                · exact absurd h (by simp)
                · refine ih _ _ _ _ _ h ?_ ?_
                  · intro s hs hf
                    split at hs
                    · rcases List.mem_append.1 hs with hs1 | hs2
                      · exact hsegs s hs1 hf
                      · rw [List.mem_singleton.1 hs2] at hf
                        simp at hf
                    · exact hsegs s hs hf
                  · intro fn fbs hsome
                    cases hsome
                    exact char_not_mem_take_firstIdx
                      (show firstIdx ['#'] _ = some fEnd from hEnd)
        | some (fn, fbs) =>
          simp only [parseLoopF, ho, hc] at h
          split at h
          · exact absurd h (by simp)
          · refine ih _ _ _ _ _ h ?_ (by simp)
            intro s hs hf
            rcases List.mem_append.1 hs with hs1 | hs2
            · exact hsegs s hs1 hf
            · rw [List.mem_singleton.1 hs2]
              exact hst fn fbs rfl

/-- The nested-directive check on the extracted filename can never fire:
the filename stops at the first `#`, so it can never contain `#FILE:`. -/
theorem parseLoopF_no_nestedFilename : ∀ fuel rem pos st segs e,
    parseLoopF fuel rem pos st segs ≠ .error (.nestedFilename e) := by
  intro fuel
  induction fuel with
  | zero =>
    intro rem pos st segs e h
    match rem, st with
    | [], none => simp [parseLoopF] at h
    | [], some (fn, fbs) => simp [parseLoopF] at h
    | c :: cs, none => simp [parseLoopF] at h
    | c :: cs, some (fn, fbs) => simp [parseLoopF] at h
  | succ fuel ih =>
    intro rem pos st segs e h
    match rem with
    | [] =>
      match st with
      | none => simp [parseLoopF] at h
      | some (fn, fbs) => simp [parseLoopF] at h
    | c :: cs =>
      rcases ho : firstIdx fileOpenMark (c :: cs) with _ | o <;>
        rcases hc : firstIdx fileCloseMark (c :: cs) with _ | cIdx
      · match st with
        | none => simp [parseLoopF, ho, hc] at h
        | some (fn, fbs) => simp [parseLoopF, ho, hc] at h
      · match st with
        | none => simp [parseLoopF, ho, hc] at h
        | some (fn, fbs) =>
          simp only [parseLoopF, ho, hc] at h
          exact ih _ _ _ _ _ h
      · match st with
        | none =>
          simp only [parseLoopF, ho, hc, closeBeforeOpen, Bool.false_eq_true, if_false] at h
          rcases hEnd : firstIdx fileOpenEnd ((c :: cs).drop (o + 6)) with _ | fEnd
          · simp only [hEnd] at h
            simp at h
          · simp only [hEnd] at h
            have hhash : '#' ∉ ((c :: cs).drop (o + 6)).take fEnd :=
              char_not_mem_take_firstIdx (show firstIdx ['#'] _ = some fEnd from hEnd)
            have hcsub : containsSub fileOpenMark (((c :: cs).drop (o + 6)).take fEnd) = false := by
              rcases hcase : containsSub fileOpenMark (((c :: cs).drop (o + 6)).take fEnd)
              · rfl
              · exact absurd (mem_of_containsSub hcase (by decide)) hhash
            rw [hcsub] at h
            split at h
            · simp at h
            · simp only [Bool.false_eq_true, if_false] at h
              exact ih _ _ _ _ _ h
        | some (fn, fbs) =>
          simp [parseLoopF, ho, hc] at h
      · match st with
        | none =>
          simp only [parseLoopF, ho, hc, closeBeforeOpen] at h
          split at h
          · simp at h
          · rcases hEnd : firstIdx fileOpenEnd ((c :: cs).drop (o + 6)) with _ | fEnd
            · simp only [hEnd] at h
              simp at h
            · simp only [hEnd] at h
              have hhash : '#' ∉ ((c :: cs).drop (o + 6)).take fEnd :=
                char_not_mem_take_firstIdx (show firstIdx ['#'] _ = some fEnd from hEnd)
              have hcsub : containsSub fileOpenMark (((c :: cs).drop (o + 6)).take fEnd)
                  = false := by
                rcases hcase : containsSub fileOpenMark (((c :: cs).drop (o + 6)).take fEnd)
                · rfl
                · exact absurd (mem_of_containsSub hcase (by decide)) hhash
              rw [hcsub] at h
              split at h
              · simp at h
              · simp only [Bool.false_eq_true, if_false] at h
                exact ih _ _ _ _ _ h
        | some (fn, fbs) =>
          simp only [parseLoopF, ho, hc] at h
          split at h
          · simp at h
          · exact ih _ _ _ _ _ h

/-- C10 (confirmed).  On success every FILE segment's filename contains no
`#` byte, hence never the opening-marker string `#FILE:`; and the parser
never returns the nested-directive error raised by the check on the
extracted filename (that return site is dead code). -/
theorem claim_C10_filenameNoHash : ∀ t segs,
    (ParseSegments t = .ok segs →
      ∀ s ∈ segs, s.type = .file →
        ('#' ∉ s.filename ∧ containsSub fileOpenMark s.filename = false)) ∧
    (∀ e, ParseSegments t ≠ .error (.nestedFilename e)) := by
  intro t segs
  constructor
  · intro h s hs hf
    have hmain : '#' ∉ s.filename := by
      unfold ParseSegments at h
      by_cases h0 : t.length = 0
      · rw [if_pos h0] at h
        cases h
        rw [List.mem_singleton.1 hs] at hf
        simp at hf
      · rw [if_neg h0] at h
        rcases hp : parseLoopF t.length t 0 none [] with e' | pre
        · rw [hp] at h
          exact absurd h (by simp)
        · rw [hp] at h
          dsimp only at h
          have hparse := parseLoopF_hashfree t.length t 0 none [] pre hp
            (by simp) (by simp)
          by_cases hlen2 : pre.length = 0
          · rw [if_pos hlen2] at h
            cases h
            rw [List.mem_singleton.1 hs] at hf
            simp at hf
          · rw [if_neg hlen2] at h
            cases h
            have hpre_ne : pre ≠ [] := fun hnil => hlen2 (by simp [hnil])
            rcases filterEdge_decomp pre hpre_ne with ⟨p, q, hdec, _, _, _⟩ | ⟨_, hres⟩
            · have hspre : s ∈ pre := by
                rw [hdec]
                simp only [List.mem_append]
                exact Or.inl (Or.inr hs)
              exact hparse s hspre hf
            · rw [hres] at hs
              rw [List.mem_singleton.1 hs] at hf
              simp at hf
    refine ⟨hmain, ?_⟩
    rcases hcase : containsSub fileOpenMark s.filename
    · rfl
    · exact absurd (mem_of_containsSub hcase (by decide)) hmain
  · intro e h
    unfold ParseSegments at h
    by_cases h0 : t.length = 0
    · rw [if_pos h0] at h
      exact absurd h (by simp)
    · rw [if_neg h0] at h
      rcases hp : parseLoopF t.length t 0 none [] with e' | pre
      · rw [hp] at h
        dsimp only at h
        injection h with he
        exact parseLoopF_no_nestedFilename t.length t 0 none [] e (he ▸ hp)
      · rw [hp] at h
        dsimp only at h
        by_cases hlen2 : pre.length = 0
        · rw [if_pos hlen2] at h
          exact absurd h (by simp)
        · rw [if_neg hlen2] at h
          exact absurd h (by simp)

/-- Witness for C10 on the parse of `#FILE:a#b#FILE#`. -/
theorem claim_C10_witness :
    '#' ∉ (Segment.mk .file ['b'] ['a']).filename ∧
      containsSub fileOpenMark (Segment.mk .file ['b'] ['a']).filename = false :=
  (claim_C10_filenameNoHash ("#FILE:a#b#FILE#".toList) [⟨.file, ['b'], ['a']⟩]).1
    (by decide) ⟨.file, ['b'], ['a']⟩ (by decide) (by decide)

/-! ## Claim C3: well-formed single-directive templates -/

theorem drop_append_of_le {a q : List Char} {j : Nat} (hj : j ≤ a.length) :
    (a ++ q).drop j = a.drop j ++ q := by
  rw [List.drop_append_eq_append_drop, Nat.sub_eq_zero_of_le hj, List.drop_zero]

theorem isPrefixOf_append_long {p d q : List Char}
    (h : p.isPrefixOf (d ++ q)) (hlen : p.length ≤ d.length) : p.isPrefixOf d := by
  have h1 : p = (d ++ q).take p.length :=
    List.prefix_iff_eq_take.1 (List.isPrefixOf_iff_prefix.1 h)
  rw [List.take_append_eq_append_take, Nat.sub_eq_zero_of_le hlen, List.take_zero,
    List.append_nil] at h1
  exact List.isPrefixOf_iff_prefix.2 (h1 ▸ List.take_prefix p.length d)

theorem isPrefixOf_append_short {p d q : List Char}
    (h : p.isPrefixOf (d ++ q)) (hlen : d.length < p.length) :
    d = p.take d.length ∧ p.take d.length ++ q.take (p.length - d.length) = p := by
  have h1 : p = (d ++ q).take p.length :=
    List.prefix_iff_eq_take.1 (List.isPrefixOf_iff_prefix.1 h)
  rw [List.take_append_eq_append_take, List.take_of_length_le (Nat.le_of_lt hlen)] at h1
  have hd : p.take d.length = d := by
    rw [h1, List.take_left]
  exact ⟨hd.symm, by rw [hd, ← h1]⟩

/-- No occurrence of the opening marker `#FILE:` exists in `body ++ #FILE#`
when the body has none: an occurrence cannot straddle the boundary because
no split of `#FILE:` matches a prefix of `#FILE#`. -/
theorem no_open_in_body_close {b : List Char}
    (hb : containsSub fileOpenMark b = false) :
    firstIdx fileOpenMark (b ++ fileCloseMark) = none := by
  rw [firstIdx_none_iff]
  intro j hpre
  by_cases hj : j < b.length
  · rw [drop_append_of_le (Nat.le_of_lt hj)] at hpre
    by_cases hlong : fileOpenMark.length ≤ (b.drop j).length
    · have hp := isPrefixOf_append_long hpre hlong
      rcases firstIdx_le_of_isPrefixOf_drop (show fileOpenMark.isPrefixOf (b.drop j) from hp)
        with ⟨i, hi, _⟩
      rw [not_containsSub_iff.1 hb] at hi
      cases hi
    · rcases isPrefixOf_append_short hpre (Nat.lt_of_not_le hlong) with ⟨_, hcomb⟩
      have hk1 : 1 ≤ (b.drop j).length := by
        simp only [List.length_drop]
        omega
      have hk5 : (b.drop j).length ≤ 5 := by
        have := Nat.lt_of_not_le hlong
        simp only [fileOpenMark_length] at this
        omega
      set k := (b.drop j).length with hk
      interval_cases k <;> exact absurd hcomb (by decide)
  · rw [List.drop_append_eq_append_drop, List.drop_of_length_le (by omega),
      List.nil_append] at hpre
    by_cases hm : j - b.length ≤ 6
    · set m := j - b.length with hm2
      interval_cases m <;> exact absurd hpre (by decide)
    · rw [List.drop_of_length_le (by simp; omega)] at hpre
      exact absurd hpre (by decide)

/-- In `body ++ #FILE#` the first occurrence of the closing marker is at
offset `|body|`, provided the body contains no occurrence and does not end
with `#FILE` (the only straddling split of `#FILE#` against itself). -/
theorem firstIdx_close_body {b : List Char}
    (hb : containsSub fileCloseMark b = false)
    (hsuf : ['#', 'F', 'I', 'L', 'E'].isSuffixOf b = false) :
    firstIdx fileCloseMark (b ++ fileCloseMark) = some b.length := by
  apply firstIdx_eq_some_of_min
  · rw [List.drop_left]
    exact List.isPrefixOf_iff_prefix.2 (List.prefix_refl _)
  · intro j hj hpre
    rw [drop_append_of_le (Nat.le_of_lt hj)] at hpre
    by_cases hlong : fileCloseMark.length ≤ (b.drop j).length
    · have hp := isPrefixOf_append_long hpre hlong
      rcases firstIdx_le_of_isPrefixOf_drop (show fileCloseMark.isPrefixOf (b.drop j) from hp)
        with ⟨i, hi, _⟩
      rw [not_containsSub_iff.1 hb] at hi
      cases hi
    · rcases isPrefixOf_append_short hpre (Nat.lt_of_not_le hlong) with ⟨hd, hcomb⟩
      have hk1 : 1 ≤ (b.drop j).length := by
        simp only [List.length_drop]
        omega
      have hk5 : (b.drop j).length ≤ 5 := by
        have := Nat.lt_of_not_le hlong
        simp only [fileCloseMark_length] at this
        omega
      have hcase : (b.drop j).length = 5 := by
        by_contra hne5
        have hk4 : (b.drop j).length ≤ 4 := by omega
        set k := (b.drop j).length with hk
        interval_cases k <;> exact absurd hcomb (by decide)
      rw [hcase] at hd
      have hsfx : ['#', 'F', 'I', 'L', 'E'] <:+ b := by
        have hdb : b.drop j <:+ b := List.drop_suffix j b
        rw [hd] at hdb
        exact hdb
      rw [← @List.isSuffixOf_iff_suffix Char _ _ ['#', 'F', 'I', 'L', 'E'] b] at hsfx
      rw [hsuf] at hsfx
      cases hsfx

theorem closeBeforeOpen_zero : ∀ cOpt : Option Nat, closeBeforeOpen cOpt 0 = false := by
  intro c
  cases c <;> simp [closeBeforeOpen]

/-- One scan step over an opening marker sitting at offset 0. -/
theorem parseLoopF_open_step {fuel : Nat} {rem : List Char} {pos : Nat} {segs : List Segment}
    {fEnd : Nat}
    (hne : rem ≠ [])
    (ho : firstIdx fileOpenMark rem = some 0)
    (hEnd : firstIdx fileOpenEnd (rem.drop 6) = some fEnd)
    (htrim : ¬ trimSpace ((rem.drop 6).take fEnd) = [])
    (hcs : containsSub fileOpenMark ((rem.drop 6).take fEnd) = false) :
    parseLoopF (fuel + 1) rem pos none segs =
      parseLoopF fuel ((rem.drop 6).drop (fEnd + 1)) (pos + 0 + 6 + fEnd + 1)
        (some ((rem.drop 6).take fEnd, pos + 0)) segs := by
  obtain ⟨r, rs, hre⟩ : ∃ r rs, rem = r :: rs := by
    cases rem with
    | nil => exact absurd rfl hne
    | cons r rs => exact ⟨r, rs, rfl⟩
  subst hre
  rcases hcv : firstIdx fileCloseMark (r :: rs) with _ | cv
  · simp only [parseLoopF, ho, hcv, closeBeforeOpen, Bool.false_eq_true, if_false,
      Nat.zero_add, hEnd]
    rw [if_neg (show ¬ (0 : Nat) < 0 by omega), if_neg htrim,
      if_neg (show ¬ containsSub fileOpenMark (((r :: rs).drop 6).take fEnd) = true by
        rw [hcs]; simp)]
  · simp only [parseLoopF, ho, hcv, closeBeforeOpen, Nat.zero_add, hEnd]
    rw [if_neg (by simp), if_neg (show ¬ (0 : Nat) < 0 by omega), if_neg htrim,
      if_neg (show ¬ containsSub fileOpenMark (((r :: rs).drop 6).take fEnd) = true by
        rw [hcs]; simp)]

/-- Scanning `body ++ #FILE#` inside a FILE block closes the block at the
end of the body and terminates. -/
theorem parseLoopF_body_close {fuel : Nat} {b fname : List Char} {pos fbs : Nat}
    {segs : List Segment}
    (hbo : containsSub fileOpenMark b = false)
    (hbc : containsSub fileCloseMark b = false)
    (hsuf : ['#', 'F', 'I', 'L', 'E'].isSuffixOf b = false) :
    parseLoopF (fuel + 1) (b ++ fileCloseMark) pos (some (fname, fbs)) segs =
      .ok (segs ++ [⟨.file, b, fname⟩]) := by
  have hopen : firstIdx fileOpenMark (b ++ fileCloseMark) = none := no_open_in_body_close hbo
  have hclose : firstIdx fileCloseMark (b ++ fileCloseMark) = some b.length :=
    firstIdx_close_body hbc hsuf
  rcases hre : b ++ fileCloseMark with _ | ⟨r, rs⟩
  · exfalso
    have hlen := congrArg List.length hre
    simp [fileCloseMark] at hlen
  · rw [hre] at hopen hclose
    simp only [parseLoopF, hopen, hclose]
    rw [← hre, List.take_left]
    have hdrop : (b ++ fileCloseMark).drop (b.length + 6) = [] := by
      apply List.drop_eq_nil_of_le
      simp
    rw [hdrop, parseLoopF_nil_none]

/-- C3 (corrected).  The original claim fails when the name-template `n`
contains a `#` byte: the parser ends the filename at the first `#` after
`#FILE:`, so the returned name is a strict prefix of `n` and the rest of
`n` leaks into the content.  Amended claim: additionally require that `n`
contains no `#` byte and that the closing marker's first occurrence in
`body ++ #FILE#` is the final one, i.e. `b` does not contain `#FILE#` and
does not end with `#FILE`; then parsing `#FILE:<n>#<b>#FILE#` yields
exactly one FILE segment with name-template `n` and content exactly `b`. -/
theorem claim_C3_singleDirective : ∀ n b : List Char,
    trimSpace n ≠ [] →
    '#' ∉ n →
    containsSub fileOpenMark b = false →
    containsSub fileCloseMark b = false →
    ['#', 'F', 'I', 'L', 'E'].isSuffixOf b = false →
    ParseSegments (fileOpenMark ++ n ++ fileOpenEnd ++ b ++ fileCloseMark) =
      .ok [⟨.file, b, n⟩] := by
  intro n b htrim hhash hbo hbc hsuf
  have hassoc : fileOpenMark ++ n ++ fileOpenEnd ++ b ++ fileCloseMark =
      fileOpenMark ++ (n ++ (fileOpenEnd ++ (b ++ fileCloseMark))) := by
    simp [List.append_assoc]
  set t := fileOpenMark ++ n ++ fileOpenEnd ++ b ++ fileCloseMark with ht
  have hne : t ≠ [] := by
    rw [hassoc]
    simp [fileOpenMark]
  have hopen0 : firstIdx fileOpenMark t = some 0 := by
    apply firstIdx_eq_some_of_min
    · rw [List.drop_zero, hassoc]
      exact List.isPrefixOf_iff_prefix.2 (List.prefix_append _ _)
    · intro j hj
      exact absurd hj (by omega)
  have hdrop6 : t.drop 6 = n ++ (fileOpenEnd ++ (b ++ fileCloseMark)) := by
    rw [hassoc, show (6 : Nat) = fileOpenMark.length from rfl, List.drop_left]
  have hX : n ++ (fileOpenEnd ++ (b ++ fileCloseMark)) = n ++ '#' :: (b ++ fileCloseMark) := rfl
  have hEnd : firstIdx fileOpenEnd (t.drop 6) = some n.length := by
    rw [hdrop6, hX]
    exact firstIdx_singleton_append hhash
  have hfname : (t.drop 6).take n.length = n := by
    rw [hdrop6, List.take_left]
  have hrem2 : (t.drop 6).drop (n.length + 1) = b ++ fileCloseMark := by
    rw [hdrop6, hX, show n ++ '#' :: (b ++ fileCloseMark) =
      (n ++ ['#']) ++ (b ++ fileCloseMark) by simp,
      show n.length + 1 = (n ++ ['#']).length by simp, List.drop_left]
  have hlen : t.length = n.length + b.length + 12 + 1 := by
    rw [hassoc]
    simp [fileOpenMark, fileOpenEnd, fileCloseMark]
    omega
  have hloop : parseLoopF t.length t 0 none [] = .ok [⟨.file, b, n⟩] := by
    rw [hlen]
    rw [parseLoopF_open_step hne hopen0 hEnd (by rw [hfname]; exact htrim)
      (by rw [hfname]
          rcases hcase : containsSub fileOpenMark n
          · rfl
          · exact absurd (mem_of_containsSub hcase (by decide)) hhash)]
    rw [hfname, hrem2]
    rw [show n.length + b.length + 12 = (n.length + b.length + 11) + 1 by omega]
    rw [parseLoopF_body_close hbo hbc hsuf]
    simp
  unfold ParseSegments
  rw [if_neg (fun h0 => hne (List.length_eq_zero.1 h0))]
  rw [hloop]
  dsimp only
  rw [if_neg (by simp)]
  rw [filterEdge_single, if_neg (by simp [isStrippable])]

/-- C3 counterexample to the claim as stated: the name-template `a#`
(not empty/whitespace after trimming, not containing `#FILE:`) and body
`b` satisfy the claim's hypotheses, yet the parser cuts the filename at
the first `#`, returning name `a` and content `#b`. -/
theorem claim_C3_counterexample :
    trimSpace ['a', '#'] ≠ [] ∧
      containsSub fileOpenMark ['a', '#'] = false ∧
      containsSub fileOpenMark ['b'] = false ∧
      containsSub fileCloseMark ['b'] = false ∧
      ParseSegments (fileOpenMark ++ ['a', '#'] ++ fileOpenEnd ++ ['b'] ++ fileCloseMark) ≠
        .ok [⟨.file, ['b'], ['a', '#']⟩] := by decide

/-- Witness for C3 with name `a` and body `b`. -/
theorem claim_C3_witness :
    ParseSegments (fileOpenMark ++ ['a'] ++ fileOpenEnd ++ ['b'] ++ fileCloseMark) =
      .ok [⟨.file, ['b'], ['a']⟩] :=
  claim_C3_singleDirective ['a'] ['b'] (by decide) (by decide) (by decide) (by decide)
    (by decide)

/-! ## `unique` (`pkg/template/functions.go`) -/

/-- A Go `any` value as `unique` observes it: `nil`, a comparable value
(such as `int` or `string`), or a value of a non-comparable dynamic type
(slice, map, function), carried with its `reflect.Type.String()` name and
an opaque identity.  `unique` never evaluates equality on non-comparable
values — it rejects the first one it scans before any map lookup — so the
model's structural equality is only exercised where it coincides with Go
interface equality (same dynamic type, equal value). -/
inductive GoVal where
  | vnil
  | vint (n : Int)
  | vstr (s : List Char)
  | vnoncmp (typeName : List Char) (id : Nat)
deriving DecidableEq, Repr

/-- `reflect.TypeOf(elem).Comparable()` on the modelled values. -/
def comparableGo : GoVal → Bool
  | .vnoncmp _ _ => false
  | _ => true

/-- `reflect.TypeOf(elem).String()` on the modelled values (unused for
`nil`, which Go skips before taking the type). -/
def typeNameGo : GoVal → List Char
  | .vnil => []
  | .vint _ => "int".toList
  | .vstr _ => "string".toList
  | .vnoncmp ty _ => ty

/-- `elem != nil`. -/
def isNilGo : GoVal → Bool
  | .vnil => true
  | _ => false

/-- The scan loop of `unique` (`functions.go` lines 28-39): `seen` holds
the keys of the Go map, `result` the accumulated output slice; the Go code
inserts into both together, so they always hold the same elements. -/
def uniqueLoop (seen result : List GoVal) : List GoVal → Except (List Char) (List GoVal)
  | [] => .ok result
  | elem :: rest =>
    if isNilGo elem = false ∧ comparableGo elem = false then
      .error ("unique: elements of type ".toList ++ typeNameGo elem ++
        " are not comparable".toList)
    else if seen.elem elem then uniqueLoop seen result rest
    else uniqueLoop (seen ++ [elem]) (result ++ [elem]) rest

/-- `unique` (`functions.go` lines 21-41); `none` models the `nil` slice,
distinct from `some []`, on input and output alike. -/
def unique (input : Option (List GoVal)) : Except (List Char) (Option (List GoVal)) :=
  match input with
  | none => .ok none
  | some xs =>
    match uniqueLoop [] [] xs with
    | .error e => .error e
    | .ok result => .ok (some result)

theorem uniqueLoop_error (y : GoVal) (post : List GoVal)
    (hnil : isNilGo y = false) (hcmp : comparableGo y = false) :
    ∀ pre seen result, (∀ z ∈ pre, ¬ (isNilGo z = false ∧ comparableGo z = false)) →
    uniqueLoop seen result (pre ++ y :: post) =
      .error ("unique: elements of type ".toList ++ typeNameGo y ++
        " are not comparable".toList) := by
  intro pre
  induction pre with
  | nil =>
    intro seen result _
    simp only [List.nil_append, uniqueLoop]
    rw [if_pos ⟨hnil, hcmp⟩]
  | cons z zs ih =>
    intro seen result hok
    simp only [List.cons_append, uniqueLoop]
    rw [if_neg (hok z (by simp))]
    by_cases hz : seen.elem z = true
    · rw [if_pos hz]
      exact ih seen result (fun w hw => hok w (by simp [hw]))
    · rw [if_neg hz]
      exact ih _ _ (fun w hw => hok w (by simp [hw]))

theorem uniqueLoop_eraseDups :
    ∀ (xs result : List GoVal), (∀ z ∈ xs, ¬ (isNilGo z = false ∧ comparableGo z = false)) →
    uniqueLoop result result xs = .ok (List.eraseDups.loop xs result.reverse) := by
  intro xs
  induction xs with
  | nil =>
    intro result _
    simp [uniqueLoop, List.eraseDups.loop]
  | cons elem rest ih =>
    intro result hok
    simp only [uniqueLoop, List.eraseDups.loop]
    rw [if_neg (hok elem (by simp))]
    have helem : result.elem elem = result.reverse.elem elem := by
      rw [List.elem_eq_mem, List.elem_eq_mem]
      simp [List.mem_reverse]
    by_cases hz : result.elem elem = true
    · rw [if_pos hz, ← helem, hz]
      exact ih result (fun w hw => hok w (by simp [hw]))
    · rw [if_neg hz, ← helem]
      rw [Bool.not_eq_true] at hz
      rw [hz]
      have := ih (result ++ [elem]) (fun w hw => hok w (by simp [hw]))
      rw [this]
      simp

/-- C7 (confirmed).  `unique` on a nil slice returns nil and no error; on an
empty non-nil slice an empty slice and no error; on a slice containing a
non-`nil` element of non-comparable dynamic type (all earlier elements being
`nil` or comparable) an error naming that element's type; and on a slice of
`nil`/comparable elements the elements in order of first occurrence with
duplicates removed (`List.eraseDups`, which keeps the first occurrence of
each element, e.g. `[1,2,2,3,1]` becomes `[1,2,3]`). -/
theorem claim_C7_unique :
    unique none = .ok none ∧
    unique (some []) = .ok (some []) ∧
    (∀ pre y post, (∀ z ∈ pre, ¬ (isNilGo z = false ∧ comparableGo z = false)) →
      isNilGo y = false → comparableGo y = false →
      unique (some (pre ++ y :: post)) =
        .error ("unique: elements of type ".toList ++ typeNameGo y ++
          " are not comparable".toList)) ∧
    (∀ xs, (∀ z ∈ xs, ¬ (isNilGo z = false ∧ comparableGo z = false)) →
      unique (some xs) = .ok (some xs.eraseDups)) := by
  refine ⟨rfl, rfl, ?_, ?_⟩
  · intro pre y post hok hnil hcmp
    unfold unique
    dsimp only
    rw [uniqueLoop_error y post hnil hcmp pre [] [] hok]
  · intro xs hok
    unfold unique
    dsimp only
    rw [uniqueLoop_eraseDups xs [] hok]
    dsimp only
    rfl

/-- Witness for C7: `unique` applied to the ints `[1,2,2,3,1]` yields
`[1,2,3]`, and to a slice containing a `[]interface {}` element it yields
the error naming that type. -/
theorem claim_C7_witness :
    unique (some [GoVal.vint 1, GoVal.vint 2, GoVal.vint 2, GoVal.vint 3, GoVal.vint 1]) =
      .ok (some [GoVal.vint 1, GoVal.vint 2, GoVal.vint 3]) := by
  have h := claim_C7_unique.2.2.2
    [GoVal.vint 1, GoVal.vint 2, GoVal.vint 2, GoVal.vint 3, GoVal.vint 1] (by decide)
  rw [h]
  decide

/-! ## Filesystem sink (`DefaultFileWriter`) and Go `path/filepath` -/

/-- Split on `/` (no separator collapsing; empty components are kept, as in
Go's byte-level scan). -/
def splitSlash : List Char → List (List Char)
  | [] => [[]]
  | c :: rest =>
    if c = '/' then [] :: splitSlash rest
    else
      match splitSlash rest with
      | [] => [[c]]
      | s :: ss => (c :: s) :: ss

/-- Join with `/`. -/
def joinSlash : List (List Char) → List Char
  | [] => []
  | [s] => s
  | s :: s2 :: rest => s ++ '/' :: joinSlash (s2 :: rest)

/-- The literal `..`. -/
def dotdot : List Char := ['.', '.']

/-- One element step of Go `filepath.Clean` (the Plan 9 lexical algorithm):
empty and `.` elements are dropped; `..` pops the latest real element,
stays as a leading `..` on relative paths, and is dropped at the root of
rooted paths; anything else is kept.  The stack holds the output elements
most recent first, so the unpoppable leading `..`s sit at its bottom. -/
def cleanPush (rooted : Bool) (stack : List (List Char)) (e : List Char) : List (List Char) :=
  if e = [] ∨ e = ['.'] then stack
  else if e = dotdot then
    match stack with
    | [] => if rooted then [] else [dotdot]
    | top :: rest => if top = dotdot then dotdot :: stack else rest
  else e :: stack

/-- All of `filepath.Clean`'s element processing. -/
def cleanSegs (rooted : Bool) (segs : List (List Char)) : List (List Char) :=
  (segs.foldl (cleanPush rooted) []).reverse

/-- Does the path start with the separator? -/
def isRooted (p : List Char) : Bool :=
  match p with
  | '/' :: _ => true
  | _ => false

/-- The raw elements of a path (the leading separator of a rooted path is
not an element). -/
def rawSegs (p : List Char) : List (List Char) :=
  if isRooted p then splitSlash (p.drop 1) else splitSlash p

/-- Print a cleaned element list back to a path (`/` for an emptied rooted
path, `.` for an emptied relative path). -/
def renderPath (rooted : Bool) (segs : List (List Char)) : List Char :=
  if rooted then '/' :: joinSlash segs
  else if segs = [] then ['.'] else joinSlash segs

/-- Go `filepath.Clean` on Unix. -/
def clean (p : List Char) : List Char :=
  if p = [] then ['.']
  else renderPath (isRooted p) (cleanSegs (isRooted p) (rawSegs p))

/-- Go `filepath.Join(a, b)` for non-empty `a`: concatenate with the
separator, then `Clean`. -/
def joinPath (a b : List Char) : List Char := clean (a ++ '/' :: b)

/-- The elements `filepath.Rel`'s scan sees in a cleaned path: none for the
empty string, a single empty element for the bare root, otherwise the
separator-split components (a rooted path contributes a leading empty
element, matching the byte-level scan of the Go code). -/
def pathElems (p : List Char) : List (List Char) :=
  if p = [] then []
  else if p = ['/'] then [[]]
  else splitSlash p

/-- Length of the longest common prefix of two element lists. -/
def commonLen : List (List Char) → List (List Char) → Nat
  | a :: as, b :: bs => if a = b then commonLen as bs + 1 else 0
  | _, _ => 0

/-- Go `filepath.Rel` on Unix (volume names are empty): clean both paths,
equal paths are `.`; a rooted/relative mismatch is an error; otherwise drop
the common element prefix, fail if the next base element is `..`, prepend
one `..` per remaining base element and append the remaining target
elements. -/
def relPath (basep targp : List Char) : Option (List Char) :=
  let base := clean basep
  let targ := clean targp
  if base = targ then some ['.']
  else
    let base1 := if base = ['.'] then [] else base
    if isRooted base1 = isRooted targ then
      let be := pathElems base1
      let te := pathElems targ
      let k := commonLen be te
      let rb := be.drop k
      let rt := te.drop k
      if rb.head? = some dotdot then none
      else if rb = [] then some (joinSlash rt)
      else some (joinSlash (rb.map (fun _ => dotdot) ++ rt))
    else none

example : clean "a/b/../c".toList = "a/c".toList := by decide
example : clean "/../x/./".toList = "/x".toList := by decide
example : clean "".toList = ".".toList := by decide
example : clean "../x".toList = "../x".toList := by decide
example : joinPath "out".toList "/etc/passwd".toList = "out/etc/passwd".toList := by decide
example : relPath "out".toList "out/a/b".toList = some "a/b".toList := by decide
example : relPath "a/b".toList "a/c".toList = some "../c".toList := by decide
example : relPath "a".toList "/a".toList = none := by decide

/-- The production filesystem sink (`DefaultFileWriter`), carrying the
optional base directory. -/
structure DefaultFileWriter where
  baseDir : List Char
deriving DecidableEq, Repr

/-- The error cases of `DefaultFileWriter.WriteFile`. -/
inductive WriteFileErr where
  | emptyFilename
  | pathTraversal (filename : List Char)
  | outsideBase (path : List Char)
deriving DecidableEq, Repr

/-- A validated write about to be handed to the operating system: the
cleaned destination path of the atomic write-then-rename, plus the bytes. -/
structure WritePlan where
  path : List Char
  content : List Char
deriving DecidableEq, Repr

/-- `DefaultFileWriter.SetBaseDir`: an empty dir clears the base, otherwise
the base becomes `filepath.Clean(dir)`.  The `os.MkdirAll`/`os.Stat` calls
are environmental I/O outside the model. -/
def SetBaseDir (w : DefaultFileWriter) (dir : List Char) : DefaultFileWriter :=
  if dir = [] then { w with baseDir := [] }
  else { w with baseDir := clean dir }

/-- `DefaultFileWriter.WriteFile` up to the point where the validated,
cleaned destination path is handed to the operating system: empty-name
rejection, the `..`-substring traversal pre-check on the raw name, joining
onto the base directory, `filepath.Clean`, and the `filepath.Rel`
defense-in-depth confinement check.  On success the `WritePlan` records the
final path; the `os.MkdirAll`/`os.WriteFile`/`os.Rename` failures are
environmental I/O outside the model. -/
def WriteFile (w : DefaultFileWriter) (filename content : List Char) :
    Except WriteFileErr WritePlan :=
  if filename = [] then .error .emptyFilename
  else if containsSub dotdot filename then .error (.pathTraversal filename)
  else
    let fullPath := if w.baseDir.isEmpty = false then joinPath w.baseDir filename else filename
    let cleanFilename := clean fullPath
    if w.baseDir.isEmpty = false then
      match relPath w.baseDir cleanFilename with
      | none => .error (.outsideBase cleanFilename)
      | some r =>
        if dotdot.isPrefixOf r then .error (.outsideBase cleanFilename)
        else .ok ⟨cleanFilename, content⟩
    else .ok ⟨cleanFilename, content⟩

example : WriteFile ⟨[]⟩ "a/../b".toList "x".toList =
    .error (.pathTraversal "a/../b".toList) := by decide
example : WriteFile ⟨"out".toList⟩ "sub/f.txt".toList "x".toList =
    .ok ⟨"out/sub/f.txt".toList, "x".toList⟩ := by decide
example : WriteFile ⟨"out".toList⟩ "/etc/passwd".toList "x".toList =
    .ok ⟨"out/etc/passwd".toList, "x".toList⟩ := by decide

/-- C4 (confirmed).  Any destination name containing the substring `..` is
rejected with the traversal error before the name is joined with the base
directory or normalized — with or without a configured base directory, and
even when the joined-and-cleaned path would stay inside the base.  The
error means no `WritePlan` is produced, so nothing is written. -/
theorem claim_C4_traversalRejected :
    ∀ (w : DefaultFileWriter) (filename content : List Char),
    containsSub dotdot filename = true →
    WriteFile w filename content = .error (.pathTraversal filename) := by
  intro w filename content h
  have hne : filename ≠ [] := by
    intro hnil
    rw [hnil] at h
    simp [containsSub, firstIdx, dotdot] at h
  unfold WriteFile
  rw [if_neg hne, if_pos h]

/-- Witness for C4: base directory `out` with name `a/../b` — the cleaned
joined path `out/b` would land inside the base, the name is rejected
anyway. -/
theorem claim_C4_witness :
    WriteFile ⟨"out".toList⟩ "a/../b".toList "x".toList =
      .error (.pathTraversal "a/../b".toList) :=
  claim_C4_traversalRejected ⟨"out".toList⟩ "a/../b".toList "x".toList (by decide)

/-! ## Path algebra for the confinement proof (claim C9) -/

theorem splitSlash_ne_nil : ∀ p : List Char, splitSlash p ≠ [] := by
  intro p
  match p with
  | [] => simp [splitSlash]
  | c :: rest =>
    simp only [splitSlash]
    split
    · simp
    · rcases h : splitSlash rest with _ | ⟨s, ss⟩ <;> simp

theorem splitSlash_cons_slash (rest : List Char) :
    splitSlash ('/' :: rest) = [] :: splitSlash rest := by
  simp [splitSlash]

theorem splitSlash_cons_other {c : Char} (hc : ¬ c = '/') {rest : List Char}
    {t : List Char} {ts : List (List Char)} (h : splitSlash rest = t :: ts) :
    splitSlash (c :: rest) = (c :: t) :: ts := by
  simp [splitSlash, hc, h]

theorem splitSlash_append : ∀ a b : List Char,
    splitSlash (a ++ '/' :: b) = splitSlash a ++ splitSlash b := by
  intro a
  induction a with
  | nil =>
    intro b
    simp [splitSlash]
  | cons c a' ih =>
    intro b
    by_cases hc : c = '/'
    · subst hc
      show splitSlash ('/' :: (a' ++ '/' :: b)) = splitSlash ('/' :: a') ++ splitSlash b
      rw [splitSlash_cons_slash, splitSlash_cons_slash, ih b]
      rfl
    · show splitSlash (c :: (a' ++ '/' :: b)) = splitSlash (c :: a') ++ splitSlash b
      rcases h : splitSlash a' with _ | ⟨t, ts⟩
      · exact absurd h (splitSlash_ne_nil a')
      · rw [splitSlash_cons_other hc (by rw [ih b, h]; rfl),
          splitSlash_cons_other hc h]
        rfl

theorem splitSlash_slashfree : ∀ (p : List Char), ∀ e ∈ splitSlash p, '/' ∉ e := by
  intro p
  induction p with
  | nil =>
    intro e he
    simp [splitSlash] at he
    simp [he]
  | cons c rest ih =>
    intro e he
    by_cases hc : c = '/'
    · subst hc
      rw [splitSlash_cons_slash] at he
      rcases List.mem_cons.1 he with rfl | h2
      · simp
      · exact ih e h2
    · rcases h : splitSlash rest with _ | ⟨t, ts⟩
      · exact absurd h (splitSlash_ne_nil rest)
      · rw [splitSlash_cons_other hc h] at he
        rcases List.mem_cons.1 he with rfl | h2
        · intro hmem
          rcases List.mem_cons.1 hmem with h3 | h4
          · exact hc h3.symm
          · exact ih t (h ▸ List.mem_cons_self t ts) h4
        · exact ih e (h ▸ List.mem_cons_of_mem t h2)

theorem splitSlash_head_isPrefix : ∀ p : List Char, ∀ s ss,
    splitSlash p = s :: ss → s <+: p := by
  intro p
  induction p with
  | nil =>
    intro s ss h
    simp [splitSlash] at h
    simp [h.1]
  | cons c rest ih =>
    intro s ss h
    by_cases hc : c = '/'
    · subst hc
      rw [splitSlash_cons_slash] at h
      cases h
      simp
    · rcases h2 : splitSlash rest with _ | ⟨t, ts⟩
      · exact absurd h2 (splitSlash_ne_nil rest)
      · rw [splitSlash_cons_other hc h2] at h
        obtain ⟨hs, -⟩ : s = c :: t ∧ ss = ts := by
          cases h
          exact ⟨rfl, rfl⟩
        subst hs
        rcases ih t ts h2 with ⟨u, hu⟩
        exact ⟨u, by rw [List.cons_append, hu]⟩

theorem mem_splitSlash_infix : ∀ (p : List Char), ∀ e ∈ splitSlash p, e <:+: p := by
  intro p
  induction p with
  | nil =>
    intro e he
    simp [splitSlash] at he
    simp [he]
  | cons c rest ih =>
    intro e he
    by_cases hc : c = '/'
    · subst hc
      rw [splitSlash_cons_slash] at he
      rcases List.mem_cons.1 he with rfl | h2
      · exact List.nil_infix
      · exact (ih e h2).trans (List.infix_cons (List.infix_refl rest))
    · rcases h : splitSlash rest with _ | ⟨t, ts⟩
      · exact absurd h (splitSlash_ne_nil rest)
      · rw [splitSlash_cons_other hc h] at he
        rcases List.mem_cons.1 he with rfl | h2
        · rcases splitSlash_head_isPrefix rest t ts h with ⟨u, hu⟩
          exact List.IsPrefix.isInfix ⟨u, by rw [List.cons_append, hu]⟩
        · exact (ih e (h ▸ List.mem_cons_of_mem t h2)).trans
            (List.infix_cons (List.infix_refl rest))

theorem splitSlash_single : ∀ s : List Char, '/' ∉ s → splitSlash s = [s] := by
  intro s
  induction s with
  | nil => intro _; simp [splitSlash]
  | cons c s' ih =>
    intro hfree
    have hc : ¬ c = '/' := fun hc => hfree (by simp [hc])
    have hs' : splitSlash s' = [s'] := ih (fun hm => hfree (by simp [hm]))
    simp [splitSlash, hc, hs']

theorem splitSlash_joinSlash : ∀ S : List (List Char), S ≠ [] →
    (∀ e ∈ S, '/' ∉ e) → splitSlash (joinSlash S) = S := by
  intro S
  induction S with
  | nil => intro h; exact absurd rfl h
  | cons s rest ih =>
    intro _ hfree
    rcases rest with _ | ⟨s2, rest'⟩
    · simp only [joinSlash]
      exact splitSlash_single s (hfree s (by simp))
    · have hjoin : joinSlash (s :: s2 :: rest') = s ++ '/' :: joinSlash (s2 :: rest') := rfl
      rw [hjoin, splitSlash_append, splitSlash_single s (hfree s (by simp)),
        ih (by simp) (fun e he => hfree e (List.mem_cons_of_mem s he))]
      rfl

/-- Elements `filepath.Clean` drops outright. -/
def isSkipSeg (e : List Char) : Bool := decide (e = [] ∨ e = ['.'])

theorem cleanPush_skip {r : Bool} {st : List (List Char)} {e : List Char}
    (h : e = [] ∨ e = ['.']) : cleanPush r st e = st := by
  unfold cleanPush
  rw [if_pos h]

theorem cleanPush_normal {r : Bool} {st : List (List Char)} {e : List Char}
    (h1 : ¬ (e = [] ∨ e = ['.'])) (h2 : ¬ e = dotdot) : cleanPush r st e = e :: st := by
  unfold cleanPush
  rw [if_neg h1, if_neg h2]

theorem foldl_cleanPush_noDotdot : ∀ (B : List (List Char)) (r : Bool) (st : List (List Char)),
    (∀ e ∈ B, e ≠ dotdot) →
    B.foldl (cleanPush r) st = (B.filter (fun e => !isSkipSeg e)).reverse ++ st := by
  intro B
  induction B with
  | nil => intro r st _; simp
  | cons e B' ih =>
    intro r st hdd
    by_cases hskip : e = [] ∨ e = ['.']
    · rw [List.foldl_cons, cleanPush_skip hskip,
        ih r st (fun x hx => hdd x (List.mem_cons_of_mem e hx))]
      have : isSkipSeg e = true := decide_eq_true hskip
      simp [List.filter_cons, this]
    · rw [List.foldl_cons, cleanPush_normal hskip (hdd e (by simp)),
        ih r (e :: st) (fun x hx => hdd x (List.mem_cons_of_mem e hx))]
      have : isSkipSeg e = false := by
        simp [isSkipSeg]
        tauto
      simp [List.filter_cons, this]

/-- A well-formed path element after cleaning: non-empty, not `.`, no
separator inside. -/
def goodSeg (e : List Char) : Prop := e ≠ [] ∧ e ≠ ['.'] ∧ '/' ∉ e

/-- A canonical (post-`Clean`) element list: all elements well-formed, the
`..`s form a prefix, and a rooted path has none. -/
def CanonSegs (r : Bool) (S : List (List Char)) : Prop :=
  (∀ e ∈ S, goodSeg e) ∧
  ∃ m T, S = List.replicate m dotdot ++ T ∧ (∀ e ∈ T, e ≠ dotdot) ∧ (r = true → m = 0)

/-- Invariant of the `Clean` output stack (stored most recent first): the
unpoppable `..`s sit at the bottom. -/
def StInv (r : Bool) (st : List (List Char)) : Prop :=
  (∀ e ∈ st, goodSeg e) ∧
  ∃ m T, st = T ++ List.replicate m dotdot ∧ (∀ e ∈ T, e ≠ dotdot) ∧ (r = true → m = 0)

theorem cleanPush_preserves {r : Bool} {st : List (List Char)} {e : List Char}
    (hfree : '/' ∉ e) (hinv : StInv r st) : StInv r (cleanPush r st e) := by
  rcases hinv with ⟨hgood, m, T, hst, hTdd, hrm⟩
  by_cases hskip : e = [] ∨ e = ['.']
  · rw [cleanPush_skip hskip]
    exact ⟨hgood, m, T, hst, hTdd, hrm⟩
  · by_cases hdd : e = dotdot
    · subst hdd
      unfold cleanPush
      rw [if_neg hskip, if_pos rfl]
      match hstm : st with
      | [] =>
        rcases hr : r
        · refine ⟨?_, 1, [], by simp, by simp, by simp⟩
          intro x hx
          rw [List.mem_singleton.1 hx]
          exact ⟨by simp [dotdot], by simp [dotdot], by decide⟩
        · exact ⟨by simp, 0, [], by simp, by simp, by simp⟩
      | top :: rest =>
        dsimp only
        by_cases htop : top = dotdot
        · rw [if_pos htop]
          have hT : T = [] := by
            rcases T with _ | ⟨t0, T'⟩
            · rfl
            · exfalso
              have hinj := hst
              rw [List.cons_append] at hinj
              injection hinj with h1 h2
              exact hTdd t0 (by simp) (h1 ▸ htop)
          have hstdd : top :: rest = List.replicate m dotdot := by
            rw [hT, List.nil_append] at hst
            exact hst
          have hm1 : 1 ≤ m := by
            by_contra hm0
            have : m = 0 := by omega
            rw [this] at hstdd
            simp at hstdd
          have hrf : r = false := by
            rcases hr : r
            · rfl
            · exact absurd (hrm hr) (by omega)
          refine ⟨?_, m + 1, [], ?_, by simp, by rw [hrf]; simp⟩
          · intro x hx
            rcases List.mem_cons.1 hx with rfl | hx2
            · exact ⟨by simp [dotdot], by simp [dotdot], by decide⟩
            · exact hgood x (hstm ▸ hx2)
          · rw [List.nil_append, List.replicate_succ, ← hstdd]
        · rw [if_neg htop]
          rcases T with _ | ⟨t0, T'⟩
          · exfalso
            rw [List.nil_append] at hst
            rcases m with _ | m'
            · simp at hst
            · rw [List.replicate_succ] at hst
              injection hst with h1 h2
              exact htop h1
          · have ht0 : t0 = top ∧ T' ++ List.replicate m dotdot = rest := by
              rw [List.cons_append] at hst
              injection hst with h1 h2
              exact ⟨h1.symm, h2.symm⟩
            refine ⟨?_, m, T', ht0.2.symm, fun x hx => hTdd x (by simp [hx]), hrm⟩
            intro x hx
            exact hgood x (List.mem_cons_of_mem top hx)
    · rw [cleanPush_normal hskip hdd]
      push_neg at hskip
      refine ⟨?_, m, e :: T, by rw [hst, List.cons_append], ?_, hrm⟩
      · intro x hx
        rcases List.mem_cons.1 hx with rfl | hx2
        · exact ⟨hskip.1, hskip.2, hfree⟩
        · exact hgood x hx2
      · intro x hx
        rcases List.mem_cons.1 hx with rfl | hx2
        · exact hdd
        · exact hTdd x hx2

theorem foldl_cleanPush_inv {r : Bool} : ∀ (P : List (List Char)) (st : List (List Char)),
    (∀ e ∈ P, '/' ∉ e) → StInv r st → StInv r (P.foldl (cleanPush r) st) := by
  intro P
  induction P with
  | nil => intro st _ hinv; exact hinv
  | cons e P' ih =>
    intro st hfree hinv
    rw [List.foldl_cons]
    exact ih _ (fun x hx => hfree x (List.mem_cons_of_mem e hx))
      (cleanPush_preserves (hfree e (by simp)) hinv)

theorem cleanSegs_canon {r : Bool} {P : List (List Char)}
    (hfree : ∀ e ∈ P, '/' ∉ e) : CanonSegs r (cleanSegs r P) := by
  have hinv : StInv r (P.foldl (cleanPush r) []) :=
    foldl_cleanPush_inv P [] hfree ⟨by simp, 0, [], by simp, by simp, by simp⟩
  rcases hinv with ⟨hgood, m, T, hst, hTdd, hrm⟩
  unfold cleanSegs
  refine ⟨fun e he => hgood e (List.mem_reverse.1 he), m, T.reverse, ?_,
    fun e he => hTdd e (List.mem_reverse.1 he), hrm⟩
  rw [hst, List.reverse_append, List.reverse_replicate]

theorem foldl_dd : ∀ m j : Nat,
    List.foldl (cleanPush false) (List.replicate j dotdot) (List.replicate m dotdot) =
      List.replicate (m + j) dotdot := by
  intro m
  induction m with
  | zero => intro j; simp
  | succ m' ih =>
    intro j
    rw [List.replicate_succ, List.foldl_cons]
    have hpush : cleanPush false (List.replicate j dotdot) dotdot =
        List.replicate (j + 1) dotdot := by
      unfold cleanPush
      rw [if_neg (by decide), if_pos rfl]
      rcases j with _ | j'
      · simp
      · rw [List.replicate_succ]
        dsimp only
        rw [if_pos rfl, ← List.replicate_succ, ← List.replicate_succ]
    rw [hpush, ih (j + 1)]
    congr 1
    omega

theorem cleanSegs_fixed {r : Bool} {S : List (List Char)}
    (hcanon : CanonSegs r S) : cleanSegs r S = S := by
  rcases hcanon with ⟨hgood, m, T, hST, hTdd, hrm⟩
  unfold cleanSegs
  rw [hST, List.foldl_append]
  have hinner : List.foldl (cleanPush r) [] (List.replicate m dotdot) =
      List.replicate m dotdot := by
    rcases hr : r
    · have := foldl_dd m 0
      simpa using this
    · rw [hrm hr]
      simp
  rw [hinner]
  have hT : (∀ e ∈ T, e ≠ dotdot) := hTdd
  rw [foldl_cleanPush_noDotdot T r _ hT]
  have hfilter : T.filter (fun e => !isSkipSeg e) = T := by
    rw [List.filter_eq_self]
    intro a ha
    have hg := hgood a (by rw [hST]; exact List.mem_append.2 (Or.inr ha))
    simp [isSkipSeg]
    exact ⟨hg.1, hg.2.1⟩
  rw [hfilter, List.reverse_append, List.reverse_reverse, List.reverse_replicate]

theorem isRooted_cons (c : Char) (xs : List Char) :
    isRooted (c :: xs) = decide (c = '/') := by
  by_cases hc : c = '/'
  · subst hc
    simp [isRooted]
  · unfold isRooted
    split
    · rename_i heq
      injection heq with h1 _
      exact absurd h1 hc
    · simp [hc]

theorem joinSlash_cons_head {c : Char} {s : List Char} {rest : List (List Char)} :
    ∃ tail, joinSlash ((c :: s) :: rest) = c :: tail := by
  rcases rest with _ | ⟨s2, rest'⟩
  · exact ⟨s, rfl⟩
  · exact ⟨s ++ '/' :: joinSlash (s2 :: rest'), rfl⟩

theorem joinSlash_ne_nil {S : List (List Char)} (hne : S ≠ [])
    (hgood : ∀ e ∈ S, goodSeg e) : joinSlash S ≠ [] := by
  rcases S with _ | ⟨s, rest⟩
  · exact absurd rfl hne
  · rcases s with _ | ⟨c, s'⟩
    · exact absurd rfl (hgood [] (by simp)).1
    · rcases @joinSlash_cons_head c s' rest with ⟨tail, htail⟩
      rw [htail]
      simp

theorem isRooted_joinSlash {S : List (List Char)} (hne : S ≠ [])
    (hgood : ∀ e ∈ S, goodSeg e) : isRooted (joinSlash S) = false := by
  rcases S with _ | ⟨s, rest⟩
  · exact absurd rfl hne
  · rcases s with _ | ⟨c, s'⟩
    · exact absurd rfl (hgood [] (by simp)).1
    · rcases @joinSlash_cons_head c s' rest with ⟨tail, htail⟩
      rw [htail, isRooted_cons]
      have : ¬ c = '/' := fun hc => (hgood (c :: s') (by simp)).2.2 (by simp [hc])
      simp [this]

theorem renderPath_ne_nil {r : Bool} {S : List (List Char)}
    (hgood : ∀ e ∈ S, goodSeg e) : renderPath r S ≠ [] := by
  unfold renderPath
  rcases r
  · simp only [Bool.false_eq_true, if_false]
    rcases hS : S with _ | ⟨s, rest⟩
    · simp
    · rw [if_neg (by simp)]
      exact joinSlash_ne_nil (by simp) (hS ▸ hgood)
  · simp

theorem isRooted_renderPath {r : Bool} {S : List (List Char)}
    (hgood : ∀ e ∈ S, goodSeg e) : isRooted (renderPath r S) = r := by
  unfold renderPath
  rcases r
  · simp only [Bool.false_eq_true, if_false]
    rcases hS : S with _ | ⟨s, rest⟩
    · simp [isRooted]
    · rw [if_neg (by simp)]
      exact isRooted_joinSlash (by simp) (hS ▸ hgood)
  · simp [isRooted]

theorem cleanSegs_rawSegs_renderPath {r : Bool} {S : List (List Char)}
    (hcanon : CanonSegs r S) : cleanSegs r (rawSegs (renderPath r S)) = S := by
  rcases hcanon with ⟨hgood, hstruct⟩
  rcases hS : S with _ | ⟨s, rest⟩
  · subst hS
    rcases r
    · decide
    · decide
  · subst hS
    have hne : (s :: rest : List (List Char)) ≠ [] := by simp
    have hfree : ∀ e ∈ (s :: rest : List (List Char)), '/' ∉ e := fun e he => (hgood e he).2.2
    have hsplit : splitSlash (joinSlash (s :: rest)) = s :: rest :=
      splitSlash_joinSlash _ hne hfree
    have hfixed : cleanSegs r (s :: rest) = s :: rest := cleanSegs_fixed ⟨hgood, hstruct⟩
    rcases r
    · unfold renderPath
      rw [if_neg (by simp), if_neg hne]
      unfold rawSegs
      rw [isRooted_joinSlash hne hgood, if_neg (by simp), hsplit, hfixed]
    · unfold renderPath
      rw [if_pos rfl]
      unfold rawSegs
      have hro : isRooted ('/' :: joinSlash (s :: rest)) = true := by simp [isRooted]
      rw [hro, if_pos rfl, List.drop_one, List.tail_cons, hsplit, hfixed]

theorem clean_renderPath {r : Bool} {S : List (List Char)}
    (hcanon : CanonSegs r S) : clean (renderPath r S) = renderPath r S := by
  unfold clean
  rw [if_neg (renderPath_ne_nil hcanon.1), isRooted_renderPath hcanon.1,
    cleanSegs_rawSegs_renderPath hcanon]

theorem rawSegs_slashfree (p : List Char) : ∀ e ∈ rawSegs p, '/' ∉ e := by
  unfold rawSegs
  split <;> exact splitSlash_slashfree _

theorem clean_eq_renderPath {p : List Char} (hne : p ≠ []) :
    clean p = renderPath (isRooted p) (cleanSegs (isRooted p) (rawSegs p)) := by
  unfold clean
  rw [if_neg hne]

theorem clean_canon (p : List Char) :
    CanonSegs (isRooted p) (cleanSegs (isRooted p) (rawSegs p)) :=
  cleanSegs_canon (rawSegs_slashfree p)

theorem isRooted_append {a : List Char} (b : List Char) (hne : a ≠ []) :
    isRooted (a ++ b) = isRooted a := by
  rcases a with _ | ⟨c, a'⟩
  · exact absurd rfl hne
  · rw [List.cons_append, isRooted_cons, isRooted_cons]

theorem rawSegs_append_name {base : List Char} (name : List Char) (hne : base ≠ []) :
    rawSegs (base ++ '/' :: name) = rawSegs base ++ splitSlash name := by
  unfold rawSegs
  rw [isRooted_append ('/' :: name) hne]
  rcases hr : isRooted base
  · rw [if_neg (by simp), if_neg (by simp), splitSlash_append]
  · rw [if_pos rfl, if_pos rfl]
    rcases base with _ | ⟨c, b'⟩
    · exact absurd rfl hne
    · rw [List.cons_append, List.drop_one, List.drop_one, List.tail_cons, List.tail_cons,
        splitSlash_append]

/-- The elements of `name` that survive cleaning when `name` has no `..`
element: the empty and `.` components are dropped, the rest kept. -/
def normSegs (name : List Char) : List (List Char) :=
  (splitSlash name).filter (fun e => !isSkipSeg e)

theorem cleanSegs_join {base name : List Char} (hne : base ≠ [])
    (hnodd : ∀ e ∈ splitSlash name, e ≠ dotdot) :
    cleanSegs (isRooted base) (rawSegs (base ++ '/' :: name)) =
      cleanSegs (isRooted base) (rawSegs base) ++ normSegs name := by
  rw [rawSegs_append_name name hne]
  unfold cleanSegs normSegs
  rw [List.foldl_append, foldl_cleanPush_noDotdot _ _ _ hnodd, List.reverse_append,
    List.reverse_reverse]

theorem name_segs_nodd {name : List Char} (h : containsSub dotdot name = false) :
    ∀ e ∈ splitSlash name, containsSub dotdot e = false := by
  intro e he
  rcases hcase : containsSub dotdot e
  · rfl
  · exfalso
    have h1 : dotdot <:+: e := containsSub_iff_infix.1 hcase
    have h2 : e <:+: name := mem_splitSlash_infix name e he
    have := containsSub_iff_infix.2 (h1.trans h2)
    rw [h] at this
    cases this

theorem nodd_sub_ne_dotdot {e : List Char} (h : containsSub dotdot e = false) :
    e ≠ dotdot := by
  intro he
  rw [he] at h
  have : containsSub dotdot dotdot = true := by decide
  rw [h] at this
  cases this

theorem normSegs_good {name : List Char} :
    ∀ e ∈ normSegs name, goodSeg e := by
  intro e he
  rcases List.mem_filter.1 he with ⟨hmem, hkeep⟩
  have hskip : isSkipSeg e = false := by
    rcases h : isSkipSeg e
    · rfl
    · rw [h] at hkeep; cases hkeep
  have hns : ¬ (e = [] ∨ e = ['.']) := by
    intro hor
    rw [show isSkipSeg e = true from decide_eq_true hor] at hskip
    cases hskip
  push_neg at hns
  exact ⟨hns.1, hns.2, splitSlash_slashfree name e hmem⟩

theorem normSegs_nodd {name : List Char} (h : containsSub dotdot name = false) :
    ∀ e ∈ normSegs name, containsSub dotdot e = false := by
  intro e he
  exact name_segs_nodd h e (List.mem_filter.1 he).1

theorem canon_append {r : Bool} {S N : List (List Char)} (hS : CanonSegs r S)
    (hgoodN : ∀ e ∈ N, goodSeg e) (hnoddN : ∀ e ∈ N, e ≠ dotdot) :
    CanonSegs r (S ++ N) := by
  rcases hS with ⟨hgood, m, T, hST, hTdd, hrm⟩
  refine ⟨?_, m, T ++ N, by rw [hST, List.append_assoc], ?_, hrm⟩
  · intro e he
    rcases List.mem_append.1 he with h1 | h2
    · exact hgood e h1
    · exact hgoodN e h2
  · intro e he
    rcases List.mem_append.1 he with h1 | h2
    · exact hTdd e h1
    · exact hnoddN e h2

theorem commonLen_self_append : ∀ A B : List (List Char), commonLen A (A ++ B) = A.length := by
  intro A
  induction A with
  | nil => intro B; rcases B with _ | ⟨b, bs⟩ <;> simp [commonLen]
  | cons a as ih =>
    intro B
    rw [List.cons_append]
    unfold commonLen
    rw [if_pos rfl, ih B]
    simp

theorem dotdot_not_isPrefixOf_joinSlash {N : List (List Char)} (hne : N ≠ [])
    (hgood : ∀ e ∈ N, goodSeg e)
    (hnodd : ∀ e ∈ N, containsSub dotdot e = false) :
    dotdot.isPrefixOf (joinSlash N) = false := by
  rcases N with _ | ⟨e0, rest⟩
  · exact absurd rfl hne
  rcases e0 with _ | ⟨c, e0'⟩
  · exact absurd rfl (hgood [] (by simp)).1
  by_cases hc : c = '.'
  · subst hc
    rcases e0' with _ | ⟨d, e0''⟩
    · exact absurd rfl (hgood ['.'] (by simp)).2.1
    · by_cases hd : d = '.'
      · subst hd
        exfalso
        have : containsSub dotdot ('.' :: '.' :: e0'') = true :=
          containsSub_iff_infix.2 ⟨[], e0'', rfl⟩
        have hn := hnodd ('.' :: '.' :: e0'') (by simp)
        rw [hn] at this
        cases this
      · have h2 : ∃ tail, joinSlash (('.' :: d :: e0'') :: rest) = '.' :: d :: tail := by
          rcases rest with _ | ⟨s2, rest'⟩
          · exact ⟨e0'', rfl⟩
          · exact ⟨e0'' ++ '/' :: joinSlash (s2 :: rest'), rfl⟩
        rcases h2 with ⟨tail, htail⟩
        rw [htail]
        simp [dotdot, List.isPrefixOf, Ne.symm hd]
  · rcases @joinSlash_cons_head c e0' rest with ⟨tail, htail⟩
    rw [htail]
    simp only [dotdot, List.isPrefixOf]
    simp [Ne.symm hc]

theorem joinSlash_ne_dot {S : List (List Char)} (hne : S ≠ [])
    (hgood : ∀ e ∈ S, goodSeg e) : joinSlash S ≠ ['.'] := by
  rcases S with _ | ⟨s, rest⟩
  · exact absurd rfl hne
  · rcases rest with _ | ⟨s2, rest'⟩
    · exact (hgood s (by simp)).2.1
    · intro h
      have hs := (hgood s (by simp)).1
      have hlen := congrArg List.length h
      rw [show joinSlash (s :: s2 :: rest') = s ++ '/' :: joinSlash (s2 :: rest') from rfl] at hlen
      simp at hlen
      have hs1 : 0 < s.length := List.length_pos.2 hs
      omega

theorem pathElems_renderPath {r : Bool} {S : List (List Char)}
    (hgood : ∀ e ∈ S, goodSeg e) (hfix : cleanSegs r S = S) (hne : S ≠ []) :
    pathElems (renderPath r S) = (if r then [[]] else []) ++ S := by
  have hfree : ∀ e ∈ S, '/' ∉ e := fun e he => (hgood e he).2.2
  have hjoin_ne : joinSlash S ≠ [] := joinSlash_ne_nil hne hgood
  have hsplit : splitSlash (joinSlash S) = S := splitSlash_joinSlash S hne hfree
  rcases r
  · unfold renderPath
    rw [if_neg (by simp), if_neg hne]
    unfold pathElems
    rw [if_neg hjoin_ne]
    have hnr : joinSlash S ≠ ['/'] := by
      intro h
      have := isRooted_joinSlash hne hgood
      rw [h] at this
      simp [isRooted] at this
    rw [if_neg hnr, hsplit]
    simp
  · unfold renderPath
    rw [if_pos rfl]
    unfold pathElems
    rw [if_neg (by simp)]
    have hnr : ('/' :: joinSlash S) ≠ ['/'] := by
      intro h
      injection h with _ h2
      exact hjoin_ne h2
    rw [if_neg hnr, splitSlash_cons_slash, hsplit]
    simp

theorem relPath_of_clean {basep targp : List Char} {rb : Bool} {S N : List (List Char)}
    (hcb : clean basep = renderPath rb S)
    (hct : clean targp = renderPath rb (S ++ N))
    (hScanon : CanonSegs rb S)
    (hNgood : ∀ e ∈ N, goodSeg e)
    (hNnodd : ∀ e ∈ N, e ≠ dotdot) :
    relPath basep targp = some (if N = [] then ['.'] else joinSlash N) := by
  have hSNcanon : CanonSegs rb (S ++ N) := canon_append hScanon hNgood hNnodd
  unfold relPath
  simp only [hcb, hct]
  by_cases hNnil : N = []
  · subst hNnil
    simp only [List.append_nil]
    simp
  · have hneq : ¬ (renderPath rb S = renderPath rb (S ++ N)) := by
      intro heq
      have h1 := congrArg (fun p => cleanSegs rb (rawSegs p)) heq
      simp only at h1
      rw [cleanSegs_rawSegs_renderPath hScanon, cleanSegs_rawSegs_renderPath hSNcanon] at h1
      have h2 := congrArg List.length h1
      rw [List.length_append] at h2
      have h3 : N.length = 0 := by omega
      exact hNnil (List.length_eq_zero.1 h3)
    rw [if_neg hneq]
    have hSN_ne : S ++ N ≠ [] := by
      intro h
      rcases List.append_eq_nil.1 h with ⟨_, h2⟩
      exact hNnil h2
    have hte : pathElems (renderPath rb (S ++ N)) = (if rb then [[]] else []) ++ (S ++ N) :=
      pathElems_renderPath hSNcanon.1 (cleanSegs_fixed hSNcanon) hSN_ne
    by_cases hdot : renderPath rb S = ['.']
    · -- base cleaned to "." : relative base with no elements
      have hrbf : rb = false := by
        rcases hr : rb
        · rfl
        · exfalso
          rw [hr] at hdot
          unfold renderPath at hdot
          rw [if_pos rfl] at hdot
          injection hdot with h1 _
          exact absurd h1 (by decide)
      subst hrbf
      have hSnil : S = [] := by
        by_contra hSne
        unfold renderPath at hdot
        rw [if_neg (by simp), if_neg hSne] at hdot
        exact joinSlash_ne_dot hSne hScanon.1 hdot
      subst hSnil
      simp only [List.nil_append] at hte hSNcanon ⊢
      rw [if_pos hdot]
      rw [show isRooted ([] : List Char) = false from rfl,
        isRooted_renderPath hSNcanon.1, if_pos rfl]
      simp only [Bool.false_eq_true, if_false, List.nil_append] at hte
      rw [show pathElems ([] : List Char) = [] from rfl, hte]
      rcases hNc : N with _ | ⟨n0, N'⟩
      · exact absurd hNc hNnil
      · rw [show commonLen [] (n0 :: N') = 0 from rfl]
        simp only [List.drop_zero, List.drop_nil]
        rw [if_neg (by simp)]
        simp
    · -- base keeps its elements
      rw [if_neg hdot]
      have hbe : pathElems (renderPath rb S) = (if rb then [[]] else []) ++ S := by
        by_cases hSnil : S = []
        · subst hSnil
          have hrbt : rb = true := by
            rcases hr : rb
            · exfalso
              rw [hr] at hdot
              exact hdot rfl
            · rfl
          subst hrbt
          rfl
        · exact pathElems_renderPath hScanon.1 (cleanSegs_fixed hScanon) hSnil
      rw [isRooted_renderPath hScanon.1, isRooted_renderPath hSNcanon.1, if_pos rfl,
        hbe, hte]
      rw [show ((if rb = true then [[]] else []) ++ (S ++ N) : List (List Char)) =
        ((if rb = true then [[]] else []) ++ S) ++ N from by rw [List.append_assoc]]
      rw [commonLen_self_append, List.drop_length, List.drop_left]
      rw [if_neg (by simp), if_pos rfl, if_neg hNnil]

/-- C9 (confirmed).  With a configured base directory, a non-empty
destination name with no `..` substring always passes the
`filepath.Rel` defense-in-depth check: the joined-and-cleaned path stays
inside the base directory, the relative remainder never starts with `..`,
and `WriteFile` reaches the write with the cleaned joined path — the
`resolved path is outside output directory` branch is unreachable. -/
theorem claim_C9_confinement : ∀ (w : DefaultFileWriter) (filename content : List Char),
    w.baseDir ≠ [] → filename ≠ [] → containsSub dotdot filename = false →
    WriteFile w filename content = .ok ⟨clean (w.baseDir ++ '/' :: filename), content⟩ := by
  intro w filename content hbase hfn hdd
  have hsplit_nodd : ∀ e ∈ splitSlash filename, e ≠ dotdot :=
    fun e he => nodd_sub_ne_dotdot (name_segs_nodd hdd e he)
  have hScanon := clean_canon w.baseDir
  have hNgood : ∀ e ∈ normSegs filename, goodSeg e := normSegs_good
  have hNnodd : ∀ e ∈ normSegs filename, e ≠ dotdot :=
    fun e he => nodd_sub_ne_dotdot (normSegs_nodd hdd e he)
  have hjoin_ne : w.baseDir ++ '/' :: filename ≠ [] := by
    rcases hB : w.baseDir with _ | ⟨c, b'⟩
    · exact absurd hB hbase
    · simp
  have hcleanjoin : clean (w.baseDir ++ '/' :: filename) =
      renderPath (isRooted w.baseDir)
        (cleanSegs (isRooted w.baseDir) (rawSegs w.baseDir) ++ normSegs filename) := by
    rw [clean_eq_renderPath hjoin_ne, isRooted_append ('/' :: filename) hbase,
      cleanSegs_join hbase hsplit_nodd]
  have hSNcanon := canon_append hScanon hNgood hNnodd
  have hidem : clean (clean (w.baseDir ++ '/' :: filename)) =
      clean (w.baseDir ++ '/' :: filename) := by
    rw [hcleanjoin]
    exact clean_renderPath hSNcanon
  have hrel : relPath w.baseDir (clean (clean (w.baseDir ++ '/' :: filename))) =
      some (if normSegs filename = [] then ['.'] else joinSlash (normSegs filename)) := by
    refine @relPath_of_clean w.baseDir (clean (clean (w.baseDir ++ '/' :: filename)))
      (isRooted w.baseDir) (cleanSegs (isRooted w.baseDir) (rawSegs w.baseDir))
      (normSegs filename) (clean_eq_renderPath hbase) ?_ hScanon hNgood hNnodd
    rw [hidem, hcleanjoin]
    exact clean_renderPath hSNcanon
  have hpref : dotdot.isPrefixOf
      (if normSegs filename = [] then ['.'] else joinSlash (normSegs filename)) = false := by
    by_cases hn : normSegs filename = []
    · rw [if_pos hn]
      decide
    · rw [if_neg hn]
      exact dotdot_not_isPrefixOf_joinSlash hn hNgood (normSegs_nodd hdd)
  have hbe : w.baseDir.isEmpty = false := by
    rcases hB : w.baseDir with _ | ⟨c, b'⟩
    · exact absurd hB hbase
    · rfl
  rw [hidem] at hrel
  unfold WriteFile
  rw [if_neg hfn, if_neg (show ¬ containsSub dotdot filename = true from by rw [hdd]; simp)]
  simp only [hbe, joinPath, if_true]
  rw [hidem, hrel]
  dsimp only
  rw [hpref]
  simp

theorem claim_C9_witness :
    WriteFile ⟨"out".toList⟩ "sub/f.txt".toList "x".toList =
      .ok ⟨clean ("out".toList ++ '/' :: "sub/f.txt".toList), "x".toList⟩ :=
  claim_C9_confinement ⟨"out".toList⟩ "sub/f.txt".toList "x".toList
    (by decide) (by decide) (by decide)

/-! ## Executor (`part_007`): `Execute`, `ExecuteWithFiles`

`text/template` parsing and execution are external to this repository; both
`Execute` and `renderSegment` funnel a byte string and the data value through
the same `template.New(...).Funcs(...).Parse(...)` / `tmpl.Execute` pipeline,
so we abstract that pipeline as a single parameter
`render : List Char → GoVal → Except (List Char) (List Char)` (template bytes
and data in, rendered bytes or an error message out), identical for both entry
points exactly as in the Go source.  The stdout `io.Writer` is modelled as an
accumulated byte list; the `FileWriter` sink as a state `σ` with a
`writeFile : σ → filename → content → Except msg σ` transition (the
`DefaultFileWriter` model above is one instance).  Bytes written before a
failure stay written: the executor returns the output and sink state reached
at the point of failure. -/

inductive ExecErr where
  | inputError (msg : List Char)
  | validationError (msg : List Char)
  | parseError (e : ParseErr)
  | renderStdoutError (i : Nat) (msg : List Char)
  | renderFilenameError (i : Nat) (msg : List Char)
  | renderContentError (i : Nat) (filename : List Char) (msg : List Char)
  | writeError (i : Nat) (filename : List Char) (msg : List Char)
deriving DecidableEq, Repr

/-- The `for _, validateFunc := range validateInputFuncs` loop shared by
`Execute` and `ExecuteWithFiles`: first validator error, if any. -/
def runValidators (data : GoVal) : List (GoVal → Option (List Char)) → Option (List Char)
  | [] => none
  | v :: vs =>
    match v data with
    | some m => some m
    | none => runValidators data vs

/-- The `for i, segment := range segments` loop of `ExecuteWithFiles`:
threads the stdout accumulator and the sink state, stopping at the first
error with the output and sink state reached so far. -/
def processSegments {σ : Type} (render : List Char → GoVal → Except (List Char) (List Char))
    (writeFile : σ → List Char → List Char → Except (List Char) σ) (data : GoVal) :
    List Segment → Nat → List Char → σ → (List Char × σ) × Option ExecErr
  | [], _, out, s => ((out, s), none)
  | seg :: rest, i, out, s =>
    match seg.type with
    | .stdout =>
      match render seg.content data with
      | .error m => ((out, s), some (.renderStdoutError i m))
      | .ok r => processSegments render writeFile data rest (i + 1) (out ++ r) s
    | .file =>
      match render seg.filename data with
      | .error m => ((out, s), some (.renderFilenameError i m))
      | .ok fn =>
        match render seg.content data with
        | .error m => ((out, s), some (.renderContentError i fn m))
        | .ok c =>
          match writeFile s fn c with
          | .error m => ((out, s), some (.writeError i fn m))
          | .ok s2 => processSegments render writeFile data rest (i + 1) out s2

/-- `Execute` from `part_007`: provider, validators, then one render of the
whole template to the output writer. -/
def Execute (render : List Char → GoVal → Except (List Char) (List Char))
    (provider : Except (List Char) GoVal) (templ : List Char)
    (validators : List (GoVal → Option (List Char))) : List Char × Option ExecErr :=
  match provider with
  | .error m => ([], some (.inputError m))
  | .ok data =>
    match runValidators data validators with
    | some m => ([], some (.validationError m))
    | none =>
      match render templ data with
      | .error m => ([], some (.renderStdoutError 0 m))
      | .ok r => (r, none)

/-- `ExecuteWithFiles` from `part_007`: provider, validators, `ParseSegments`,
then the segment loop. -/
def ExecuteWithFiles {σ : Type} (render : List Char → GoVal → Except (List Char) (List Char))
    (writeFile : σ → List Char → List Char → Except (List Char) σ)
    (provider : Except (List Char) GoVal) (templ : List Char)
    (validators : List (GoVal → Option (List Char))) (s0 : σ) :
    (List Char × σ) × Option ExecErr :=
  match provider with
  | .error m => (([], s0), some (.inputError m))
  | .ok data =>
    match runValidators data validators with
    | some m => (([], s0), some (.validationError m))
    | none =>
      match ParseSegments templ with
      | .error e => (([], s0), some (.parseError e))
      | .ok segs => processSegments render writeFile data segs 0 [] s0

theorem processSegments_append {σ : Type}
    (render : List Char → GoVal → Except (List Char) (List Char))
    (writeFile : σ → List Char → List Char → Except (List Char) σ) (data : GoVal) :
    ∀ (pre rest : List Segment) (i : Nat) (out : List Char) (s : σ)
      (out1 : List Char) (s1 : σ),
    processSegments render writeFile data pre i out s = ((out1, s1), none) →
    processSegments render writeFile data (pre ++ rest) i out s =
      processSegments render writeFile data rest (i + pre.length) out1 s1 := by
  intro pre
  induction pre with
  | nil =>
    intro rest i out s out1 s1 h
    obtain ⟨rfl, rfl⟩ : out = out1 ∧ s = s1 := by
      simpa [processSegments] using h
    simp [processSegments]
  | cons seg pre' ih =>
    intro rest i out s out1 s1 h
    rcases hty : seg.type with _ | _
    · rcases hr : render seg.content data with m | r
      · rw [processSegments, hty, hr] at h
        dsimp only at h
        exact absurd h (by simp)
      · rw [processSegments, hty, hr] at h
        dsimp only at h
        rw [List.cons_append, processSegments, hty, hr]
        dsimp only
        rw [ih rest (i + 1) (out ++ r) s out1 s1 h]
        congr 1
        rw [List.length_cons]
        omega
    · rw [processSegments, hty] at h
      dsimp only at h
      rcases hfn : render seg.filename data with m | fn
      · rw [hfn] at h
        dsimp only at h
        exact absurd h (by simp)
      · rw [hfn] at h
        dsimp only at h
        rcases hc : render seg.content data with m | c
        · rw [hc] at h
          dsimp only at h
          exact absurd h (by simp)
        · rw [hc] at h
          dsimp only at h
          rcases hw : writeFile s fn c with m | s2
          · rw [hw] at h
            dsimp only at h
            exact absurd h (by simp)
          · rw [hw] at h
            dsimp only at h
            rw [List.cons_append, processSegments, hty]
            dsimp only
            rw [hfn]
            dsimp only
            rw [hc]
            dsimp only
            rw [hw]
            dsimp only
            rw [ih rest (i + 1) out s2 out1 s1 h]
            congr 1
            rw [List.length_cons]
            omega

/-- C5 (confirmed).  In multi-destination execution, if the pipeline reaches a
NamedFile segment whose filename rendering fails, or whose filename renders
but whose content rendering fails, then `ExecuteWithFiles` stops with an
error: nothing is written to the sink for that segment and the stdout bytes
and sink state produced by the earlier segments are returned exactly as they
were at the point of failure — no rollback. -/
theorem claim_C5_renderFailureAborts {σ : Type}
    (render : List Char → GoVal → Except (List Char) (List Char))
    (writeFile : σ → List Char → List Char → Except (List Char) σ)
    (provider : Except (List Char) GoVal) (templ : List Char)
    (validators : List (GoVal → Option (List Char))) (s0 : σ) (data : GoVal)
    (pre post : List Segment) (seg : Segment) (out1 : List Char) (s1 : σ)
    (hprov : provider = .ok data)
    (hval : runValidators data validators = none)
    (hparse : ParseSegments templ = .ok (pre ++ seg :: post))
    (hseg : seg.type = .file)
    (hpre : processSegments render writeFile data pre 0 [] s0 = ((out1, s1), none))
    (hfail : (∃ m, render seg.filename data = .error m) ∨
             (∃ fn m, render seg.filename data = .ok fn ∧ render seg.content data = .error m)) :
    ∃ e, ExecuteWithFiles render writeFile provider templ validators s0 =
      ((out1, s1), some e) := by
  subst hprov
  rw [ExecuteWithFiles]
  rw [hval]
  dsimp only
  rw [hparse]
  dsimp only
  rw [processSegments_append render writeFile data pre (seg :: post) 0 [] s0 out1 s1 hpre]
  rcases hfail with ⟨m, hm⟩ | ⟨fn, m, hfn, hm⟩
  · refine ⟨.renderFilenameError (0 + pre.length) m, ?_⟩
    rw [processSegments, hseg]
    dsimp only
    rw [hm]
  · refine ⟨.renderContentError (0 + pre.length) fn m, ?_⟩
    rw [processSegments, hseg]
    dsimp only
    rw [hfn]
    dsimp only
    rw [hm]

theorem claim_C5_witness :
    ∃ e, ExecuteWithFiles
        (fun tl _ => if tl = ['a'] then (.error [] : Except (List Char) (List Char)) else .ok tl)
        (fun (s : Unit) _ _ => (.ok s : Except (List Char) Unit))
        (.ok .vnil) "#FILE:a#y#FILE#".toList [] () = (([], ()), some e) :=
  claim_C5_renderFailureAborts _ _ _ _ _ _ .vnil [] [] ⟨.file, ['y'], ['a']⟩ [] ()
    rfl rfl (by decide) rfl rfl (Or.inl ⟨[], by decide⟩)

/-- C8 (corrected).  On any template containing neither `#FILE:` nor `#FILE#`,
`ExecuteWithFiles` never touches the sink, and when the template is in
addition empty or not whitespace-only it writes exactly the bytes `Execute`
writes.  (A non-empty whitespace-only marker-free template is the exception
for the byte agreement only: edge trimming replaces it by an empty stdout
segment, so the two modes render different template bytes — see the
counterexample — while the sink still stays untouched.) -/
theorem claim_C8_markerFreeAgreement {σ : Type}
    (render : List Char → GoVal → Except (List Char) (List Char))
    (writeFile : σ → List Char → List Char → Except (List Char) σ)
    (provider : Except (List Char) GoVal) (templ : List Char)
    (validators : List (GoVal → Option (List Char))) (s0 : σ)
    (ho : containsSub fileOpenMark templ = false)
    (hc : containsSub fileCloseMark templ = false) :
    ((templ = [] ∨ trimSpace templ ≠ []) →
      (ExecuteWithFiles render writeFile provider templ validators s0).1.1 =
        (Execute render provider templ validators).1) ∧
    (ExecuteWithFiles render writeFile provider templ validators s0).1.2 = s0 := by
  have hparse := parse_markerFree ho hc
  constructor
  · intro htriv
    have hcontent : (if trimSpace templ = [] then ([] : List Char) else templ) = templ := by
      rcases htriv with rfl | ht
      · simp [trimSpace]
      · rw [if_neg ht]
    rw [hcontent] at hparse
    rcases provider with m | data
    · rfl
    · rcases hval : runValidators data validators with _ | m
      · rw [ExecuteWithFiles, Execute]
        rw [hval]
        dsimp only
        rw [hparse]
        dsimp only
        rcases hr : render templ data with m | r
        · rw [processSegments]
          dsimp only
          rw [hr]
        · rw [processSegments]
          dsimp only
          rw [hr]
          dsimp only
          rw [processSegments]
          simp
      · rw [ExecuteWithFiles, Execute]
        rw [hval]
  · rcases provider with m | data
    · rfl
    · rcases hval : runValidators data validators with _ | m
      · rw [ExecuteWithFiles]
        rw [hval]
        dsimp only
        rw [hparse]
        dsimp only
        rcases hr : render (if trimSpace templ = [] then ([] : List Char) else templ) data
          with m | r
        · rw [processSegments]
          dsimp only
          rw [hr]
        · rw [processSegments]
          dsimp only
          rw [hr]
          dsimp only
          rw [processSegments]
      · rw [ExecuteWithFiles]
        rw [hval]

theorem claim_C8_witness :
    (ExecuteWithFiles (fun tl _ => (.ok tl : Except (List Char) (List Char)))
        (fun (s : Unit) _ _ => (.ok s : Except (List Char) Unit))
        (.ok .vnil) "hi".toList [] ()).1.1 =
      (Execute (fun tl _ => (.ok tl : Except (List Char) (List Char)))
        (.ok .vnil) "hi".toList []).1 ∧
    (ExecuteWithFiles (fun tl _ => (.ok tl : Except (List Char) (List Char)))
        (fun (s : Unit) _ _ => (.ok s : Except (List Char) Unit))
        (.ok .vnil) "hi".toList [] ()).1.2 = () :=
  ⟨(claim_C8_markerFreeAgreement _ _ _ _ _ _ (by decide) (by decide)).1 (Or.inr (by decide)),
   (claim_C8_markerFreeAgreement _ _ _ _ _ _ (by decide) (by decide)).2⟩

/-- C8 counterexample: on the non-empty whitespace-only marker-free template
`" "` with the identity render function, `Execute` writes `" "` but
`ExecuteWithFiles` writes nothing — edge trimming replaced the whitespace
stdout segment by an empty one, so the two modes disagree. -/
theorem claim_C8_counterexample :
    (ExecuteWithFiles (fun tl _ => (.ok tl : Except (List Char) (List Char)))
        (fun (s : Unit) _ _ => (.ok s : Except (List Char) Unit))
        (.ok .vnil) [' '] [] ()).1.1 ≠
      (Execute (fun tl _ => (.ok tl : Except (List Char) (List Char)))
        (.ok .vnil) [' '] []).1 := by
  decide
